import Mathlib

/-!
Verification of the srctools Cython tokenizer (`src/srctools/_tokenizer.pyx`).

The tokenizer is embedded shallowly:
* `Token` mirrors the `Token` enum (lines 5-20 of the source).
* `Tokenizer` mirrors the `cdef class Tokenizer` state fields (lines 31-39):
  the current chunk buffer, the remaining chunk iterator, the cursor
  `char_index`, the filename, the line counter and the `string_bracket` flag.
  The pluggable `error_type` is abstracted: every error built through
  `_error` becomes a `TokError.tse` value carrying message, filename and
  line number, exactly the three constructor arguments at lines 108-112.
* Streamed chunks may be non-strings in Python; `Chunk.other` stands for a
  chunk that is not a string (line 126 raises a plain `ValueError` for it).
* The scanning loops of `_next_token` (lines 146-279) are translated as
  fueled recursive functions; `Tokenizer.next_token` supplies fuel
  `M t + 2`, one unit more than the number of remaining source characters,
  which is proved sufficient below.  Out-of-fuel is the dedicated error
  `TokError.fuel`, shown unreachable for well-formed states.
-/

/-- The token kinds of the `Token` enum (source lines 5-20). -/
inductive Token
  | EOF
  | STRING
  | NEWLINE
  | PAREN_ARGS
  | BRACE_OPEN
  | BRACE_CLOSE
  | PROP_FLAG
  | BRACK_OPEN
  | BRACK_CLOSE
  | COLON
  | EQUALS
  | PLUS
deriving DecidableEq

/-- Python's `str()` of a `Token` enum member, as interpolated by the
f-string in `expect` (source line 301). -/
def Token.pyStr : Token → String
  | .EOF => "Token.EOF"
  | .STRING => "Token.STRING"
  | .NEWLINE => "Token.NEWLINE"
  | .PAREN_ARGS => "Token.PAREN_ARGS"
  | .BRACE_OPEN => "Token.BRACE_OPEN"
  | .BRACE_CLOSE => "Token.BRACE_CLOSE"
  | .PROP_FLAG => "Token.PROP_FLAG"
  | .BRACK_OPEN => "Token.BRACK_OPEN"
  | .BRACK_CLOSE => "Token.BRACK_CLOSE"
  | .COLON => "Token.COLON"
  | .EQUALS => "Token.EQUALS"
  | .PLUS => "Token.PLUS"

/-- A token paired with its value: `None` for EOF, the text otherwise,
mirroring the `(token, value)` pairs returned by `_next_token`. -/
abbrev TokValue := Token × Option String

/-- One streamed input chunk: either a string, or some non-string object
(the case line 126 of the source guards against). -/
inductive Chunk
  | str (s : String)
  | other
deriving DecidableEq

/-- Whether a chunk is a string. -/
def Chunk.isStr : Chunk → Bool
  | .str _ => true
  | .other => false

/-- Errors of the tokenizer.  `tse message filename line_num` models an
instance of the configured `TokenSyntaxError` subclass built by `_error`
(source lines 106-112); `valueError` models a plain Python
`ValueError`/`TypeError` carrying no filename or line; `fuel` is the
artificial out-of-fuel marker of the embedding, proved unreachable. -/
inductive TokError
  | tse (message : String) (filename : String) (line_num : Nat)
  | valueError (message : String)
  | fuel
deriving DecidableEq

/-- Whether an error is an instance of the configured error type (and so
carries filename and line number). -/
def TokError.isTse : TokError → Bool
  | .tse _ _ _ => true
  | _ => false

/-- The mutable state of the `cdef class Tokenizer` (source lines 31-39). -/
structure Tokenizer where
  cur_chunk : List Char
  chunk_iter : List Chunk
  char_index : Int
  filename : String
  line_num : Nat
  string_bracket : Bool
deriving DecidableEq

/-- `Tokenizer.__init__` for a single string (source lines 55-57, 61, 77). -/
def Tokenizer.fromString (data : String) (filename : String)
    (string_bracket : Bool) : Tokenizer :=
  { cur_chunk := data.data
    chunk_iter := []
    char_index := -1
    filename := filename
    line_num := 1
    string_bracket := string_bracket }

/-- `Tokenizer.__init__` for a chunk iterable (source lines 58-61, 77). -/
def Tokenizer.fromChunks (data : List Chunk) (filename : String)
    (string_bracket : Bool) : Tokenizer :=
  { cur_chunk := []
    chunk_iter := data
    char_index := -1
    filename := filename
    line_num := 1
    string_bracket := string_bracket }

/-- Python string indexing `l[i]`: a non-negative index reads from the
front, a negative index from the back.  Out-of-range reads never occur on
reachable states; a default character stands for Python's `IndexError`. -/
def pyGet (l : List Char) (i : Int) : Char :=
  if 0 ≤ i then l.getD i.toNat ' ' else l.getD (l.length + i).toNat ' '

/-- The `for chunk in self.chunk_iter` loop of `_next_char` (source lines
135-138): skip empty chunks, return the first non-empty one together with
the not-yet-consumed remainder of the iterator.  Iterating into a
non-string chunk fails like Python's `len()` on an object without one. -/
def skipEmptyChunks : List Chunk → Except TokError (Option (List Char × List Chunk))
  | [] => .ok none
  | .other :: _ => .error (.valueError "object has no len()")
  | .str s :: rest =>
    if 0 < s.length then .ok (some (s.data, rest))
    else skipEmptyChunks rest

/-- `Tokenizer._next_char` (source lines 114-140).  Returns `none` for the
`-1` "no more characters" sentinel.  A non-string chunk raises
`ValueError("Data was not a string!")` (line 127). -/
def Tokenizer.next_char (t : Tokenizer) : Except TokError (Option Char × Tokenizer) :=
  let i := t.char_index + 1
  if i < (t.cur_chunk.length : Int) then
    .ok (some (pyGet t.cur_chunk i), { t with char_index := i })
  else
    match t.chunk_iter with
    | [] => .ok (none, { t with char_index := i })
    | .other :: _ => .error (.valueError "Data was not a string!")
    | .str s :: rest =>
      if 0 < s.length then
        .ok (some (pyGet s.data 0),
          { t with cur_chunk := s.data, chunk_iter := rest, char_index := 0 })
      else
        match skipEmptyChunks rest with
        | .error e => .error e
        | .ok none =>
          .ok (none, { t with cur_chunk := s.data, chunk_iter := [], char_index := 0 })
        | .ok (some (cs, rest')) =>
          .ok (some (pyGet cs 0),
            { t with cur_chunk := cs, chunk_iter := rest', char_index := 0 })

/-- The one-character pushback `self.char_index -= 1` (source lines 192, 274). -/
def Tokenizer.unget (t : Tokenizer) : Tokenizer :=
  { t with char_index := t.char_index - 1 }

/-- `BARE_DISALLOWED` (source line 23): characters not allowed in bare names. -/
def BARE_DISALLOWED : List Char :=
  ['"', Char.ofNat 39, '{', '}', '<', '>', '(', ')', ';', ':', '[', ']', '\n', '\t', ' ']

/-- The comment-skipping loop of `_next_token` (source lines 187-190):
consume characters until a newline or end of input, then break.  The
pushback of the terminator (line 192) is applied by the caller. -/
def Tokenizer.commentLoop : Nat → Tokenizer → Except TokError Tokenizer
  | 0, _ => .error .fuel
  | f + 1, t =>
    match t.next_char with
    | .error e => .error e
    | .ok (none, t') => .ok t'
    | .ok (some c, t') => if c = '\n' then .ok t' else commentLoop f t'

/-- The quoted-string loop of `_next_token` (source lines 196-226),
accumulating decoded characters in `acc`. -/
def Tokenizer.stringLoop : Nat → Tokenizer → List Char →
    Except TokError (TokValue × Tokenizer)
  | 0, _, _ => .error .fuel
  | f + 1, t, acc =>
    match t.next_char with
    | .error e => .error e
    | .ok (none, t') => .error (.tse "Unterminated string!" t'.filename t'.line_num)
    | .ok (some c, t') =>
      if c = '"' then .ok ((.STRING, some (String.mk acc)), t')
      else if c = '\n' then
        stringLoop f { t' with line_num := t'.line_num + 1 } (acc ++ ['\n'])
      else if c = '\\' then
        match t'.next_char with
        | .error e => .error e
        | .ok (none, t2) => .error (.tse "Unterminated string!" t2.filename t2.line_num)
        | .ok (some e, t2) =>
          if e = 'n' then stringLoop f t2 (acc ++ ['\n'])
          else if e = 't' then stringLoop f t2 (acc ++ ['\t'])
          else if e = '\n' then stringLoop f t2 acc
          else if e = '"' ∨ e = '\\' ∨ e = '/' then stringLoop f t2 (acc ++ [e])
          else stringLoop f t2 (acc ++ ['\\', e])
      else stringLoop f t' (acc ++ [c])

/-- The property-flag loop of `_next_token` (source lines 233-243).  A raw
newline raises `self.error(self._tok_NEWLINE)`, whose message `error`
formats as `Unexpected token NEWLINE!` (source lines 100-101). -/
def Tokenizer.flagLoop : Nat → Tokenizer → List Char →
    Except TokError (TokValue × Tokenizer)
  | 0, _, _ => .error .fuel
  | f + 1, t, acc =>
    match t.next_char with
    | .error e => .error e
    | .ok (none, t') =>
      .error (.tse "Unterminated property flag!" t'.filename t'.line_num)
    | .ok (some c, t') =>
      if c = ']' then .ok ((.PROP_FLAG, some (String.mk acc)), t')
      else if c = '\n' then
        .error (.tse "Unexpected token NEWLINE!" t'.filename t'.line_num)
      else flagLoop f t' (acc ++ [c])

/-- The parenthesis loop of `_next_token` (source lines 247-256): a raw
newline increments the line counter and is kept. -/
def Tokenizer.parenLoop : Nat → Tokenizer → List Char →
    Except TokError (TokValue × Tokenizer)
  | 0, _, _ => .error .fuel
  | f + 1, t, acc =>
    match t.next_char with
    | .error e => .error e
    | .ok (none, t') =>
      .error (.tse "Unterminated parentheses!" t'.filename t'.line_num)
    | .ok (some c, t') =>
      if c = ')' then .ok ((.PAREN_ARGS, some (String.mk acc)), t')
      else if c = '\n' then
        parenLoop f { t' with line_num := t'.line_num + 1 } (acc ++ ['\n'])
      else parenLoop f t' (acc ++ [c])

/-- The bare-name loop of `_next_token` (source lines 261-277): stop at end
of input, or push back a disallowed character and return the word. -/
def Tokenizer.bareLoop : Nat → Tokenizer → List Char →
    Except TokError (TokValue × Tokenizer)
  | 0, _, _ => .error .fuel
  | f + 1, t, acc =>
    match t.next_char with
    | .error e => .error e
    | .ok (none, t') => .ok ((.STRING, some (String.mk acc)), t')
    | .ok (some c, t') =>
      if BARE_DISALLOWED.contains c then
        .ok ((.STRING, some (String.mk acc)), t'.unget)
      else bareLoop f t' (acc ++ [c])

/-- `Tokenizer._next_token` (source lines 146-279), with explicit fuel for
the `while True` loop.  The branch order follows the source dispatch. -/
def Tokenizer.nextTokenF : Nat → Tokenizer → Except TokError (TokValue × Tokenizer)
  | 0, _ => .error .fuel
  | f + 1, t =>
    match t.next_char with
    | .error e => .error e
    | .ok (none, t') => .ok ((.EOF, none), t')
    | .ok (some c, t') =>
      if c = '{' then .ok ((.BRACE_OPEN, some "\x7b"), t')
      else if c = '}' then .ok ((.BRACE_CLOSE, some "\x7d"), t')
      else if c = ':' then .ok ((.COLON, some ":"), t')
      else if c = '+' then .ok ((.PLUS, some "+"), t')
      else if c = '=' then .ok ((.EQUALS, some "="), t')
      else if c = ']' then .ok ((.BRACK_CLOSE, some "]"), t')
      else if c = '\n' then
        .ok ((.NEWLINE, some "\n"), { t' with line_num := t'.line_num + 1 })
      else if c = ' ' ∨ c = '\t' then nextTokenF f t'
      else if c = '/' then
        match t'.next_char with
        | .error e => .error e
        | .ok (c2, t2) =>
          if c2 = some '/' then
            match t2.commentLoop f with
            | .error e => .error e
            | .ok t3 => nextTokenF f t3.unget
          else .error (.tse "Single slash found!" t2.filename t2.line_num)
      else if c = '"' then t'.stringLoop f []
      else if c = '[' then
        if ¬ t'.string_bracket then .ok ((.BRACK_OPEN, some "["), t')
        else t'.flagLoop f []
      else if c = '(' then t'.parenLoop f []
      else if ¬ BARE_DISALLOWED.contains c then t'.bareLoop f [c]
      else
        .error (.tse ("Unexpected character \"" ++ String.mk [c] ++ "\"!")
          t'.filename t'.line_num)

/-- Total length of the string chunks still to be pulled; a non-string
chunk counts one step (its pull fails immediately). -/
def chunkLen : List Chunk → Nat
  | [] => 0
  | .str s :: rest => s.length + chunkLen rest
  | .other :: rest => 1 + chunkLen rest

/-- Number of source characters the tokenizer can still consume. -/
def Tokenizer.M (t : Tokenizer) : Nat :=
  ((t.cur_chunk.length : Int) - (t.char_index + 1)).toNat + chunkLen t.chunk_iter

/-- `Tokenizer.__call__` / `_next_token`: one token request, with fuel
`M t + 2` (proved sufficient below). -/
def Tokenizer.next_token (t : Tokenizer) : Except TokError (TokValue × Tokenizer) :=
  Tokenizer.nextTokenF (t.M + 2) t

/-- Driving the tokenizer to completion: collect the `(token, value)`
pairs of successive `next_token` calls, up to and including EOF, together
with the final line number. -/
def Tokenizer.tokenizeF : Nat → Tokenizer → Except TokError (List TokValue × Nat)
  | 0, _ => .error .fuel
  | f + 1, t =>
    match t.next_token with
    | .error e => .error e
    | .ok (tv, t') =>
      if tv.1 = .EOF then .ok ([tv], t'.line_num)
      else
        match tokenizeF f t' with
        | .error e => .error e
        | .ok (l, ln) => .ok (tv :: l, ln)

/-- Full tokenization of the remaining input (at most `M t + 1` non-EOF
tokens can be produced, so fuel `M t + 2` suffices). -/
def Tokenizer.tokenize (t : Tokenizer) : Except TokError (List TokValue × Nat) :=
  t.tokenizeF (t.M + 2)

/-- The token-consuming loop of `expect` (source lines 295-298): pull one
token, and while `skip` is set and it is a NEWLINE, pull again. -/
def Tokenizer.expectLoop : Nat → Tokenizer → Bool →
    Except TokError (TokValue × Tokenizer)
  | 0, _, _ => .error .fuel
  | f + 1, t, skip =>
    match t.next_token with
    | .error e => .error e
    | .ok ((tok, v), t') =>
      if skip ∧ tok = .NEWLINE then expectLoop f t' skip
      else .ok ((tok, v), t')

/-- `Tokenizer.expect` (source lines 285-301).  Note the source function
body ends with the mismatch `raise`; there is no `return` statement, so on
success Python returns `None` -- hence the `.ok (none, t')`. -/
def Tokenizer.expect (t : Tokenizer) (token : Token) (skip_newline : Bool) :
    Except TokError (Option String × Tokenizer) :=
  let skip := if token = .NEWLINE then false else skip_newline
  match t.expectLoop (t.M + 2) skip with
  | .error e => .error e
  | .ok ((tok, _), t') =>
    if tok ≠ token then
      .error (.tse ("Expected " ++ token.pyStr ++ ", but got " ++ tok.pyStr ++ "!")
        t'.filename t'.line_num)
    else .ok (none, t')

/-- `n + 1` successive `next_token` calls, keeping the last result. -/
def Tokenizer.nextN : Nat → Tokenizer → Except TokError (TokValue × Tokenizer)
  | 0, t => t.next_token
  | n + 1, t =>
    match t.next_token with
    | .error e => .error e
    | .ok (_, t') => nextN n t'

/-- Concatenation of the characters of a chunk list (non-string chunks
contribute nothing; they are only ever inspected under `Inv`). -/
def chunkFlat : List Chunk → List Char
  | [] => []
  | .str s :: rest => s.data ++ chunkFlat rest
  | .other :: rest => chunkFlat rest

/-- The characters the tokenizer has not yet consumed: the rest of the
current chunk after the cursor, then the pending chunks. -/
def Tokenizer.stream (t : Tokenizer) : List Char :=
  t.cur_chunk.drop (t.char_index + 1).toNat ++ chunkFlat t.chunk_iter

/-- Reachable-state invariant: the cursor is at least `-1` (its initial
value; pushback only ever follows a consume) and all pending chunks are
strings. -/
def Tokenizer.Inv (t : Tokenizer) : Prop :=
  -1 ≤ t.char_index ∧ t.chunk_iter.all Chunk.isStr = true

instance (t : Tokenizer) : Decidable t.Inv := by
  unfold Tokenizer.Inv
  infer_instance

/-!
## The stream-level machine

The behaviour of the tokenizer depends on its state only through the
abstraction `(stream, line_num, filename, string_bracket)`; the functions
below perform the same computation directly on the character stream.  The
simulation theorems connecting them to the concrete machine are the
backbone of all claims, in particular the chunk-segmentation invariance.
-/

/-- Stream-level `commentLoop`: the returned stream already includes the
caller's pushback of the terminating character. -/
def commentA : Nat → List Char → Except TokError (List Char)
  | 0, _ => .error .fuel
  | _ + 1, [] => .ok []
  | f + 1, c :: rest => if c = '\n' then .ok (c :: rest) else commentA f rest

/-- Stream-level `stringLoop`. -/
def stringA (fn : String) : Nat → List Char → Nat → List Char →
    Except TokError (TokValue × List Char × Nat)
  | 0, _, _, _ => .error .fuel
  | _ + 1, [], ln, _ => .error (.tse "Unterminated string!" fn ln)
  | f + 1, c :: rest, ln, acc =>
    if c = '"' then .ok ((.STRING, some (String.mk acc)), rest, ln)
    else if c = '\n' then stringA fn f rest (ln + 1) (acc ++ ['\n'])
    else if c = '\\' then
      match rest with
      | [] => .error (.tse "Unterminated string!" fn ln)
      | e :: rest' =>
        if e = 'n' then stringA fn f rest' ln (acc ++ ['\n'])
        else if e = 't' then stringA fn f rest' ln (acc ++ ['\t'])
        else if e = '\n' then stringA fn f rest' ln acc
        else if e = '"' ∨ e = '\\' ∨ e = '/' then stringA fn f rest' ln (acc ++ [e])
        else stringA fn f rest' ln (acc ++ ['\\', e])
    else stringA fn f rest ln (acc ++ [c])

/-- Stream-level `flagLoop`. -/
def flagA (fn : String) : Nat → List Char → Nat → List Char →
    Except TokError (TokValue × List Char × Nat)
  | 0, _, _, _ => .error .fuel
  | _ + 1, [], ln, _ => .error (.tse "Unterminated property flag!" fn ln)
  | f + 1, c :: rest, ln, acc =>
    if c = ']' then .ok ((.PROP_FLAG, some (String.mk acc)), rest, ln)
    else if c = '\n' then .error (.tse "Unexpected token NEWLINE!" fn ln)
    else flagA fn f rest ln (acc ++ [c])

/-- Stream-level `parenLoop`. -/
def parenA (fn : String) : Nat → List Char → Nat → List Char →
    Except TokError (TokValue × List Char × Nat)
  | 0, _, _, _ => .error .fuel
  | _ + 1, [], ln, _ => .error (.tse "Unterminated parentheses!" fn ln)
  | f + 1, c :: rest, ln, acc =>
    if c = ')' then .ok ((.PAREN_ARGS, some (String.mk acc)), rest, ln)
    else if c = '\n' then parenA fn f rest (ln + 1) (acc ++ ['\n'])
    else parenA fn f rest ln (acc ++ [c])

/-- Stream-level `bareLoop`. -/
def bareA : Nat → List Char → Nat → List Char →
    Except TokError (TokValue × List Char × Nat)
  | 0, _, _, _ => .error .fuel
  | _ + 1, [], ln, acc => .ok ((.STRING, some (String.mk acc)), [], ln)
  | f + 1, c :: rest, ln, acc =>
    if BARE_DISALLOWED.contains c then
      .ok ((.STRING, some (String.mk acc)), c :: rest, ln)
    else bareA f rest ln (acc ++ [c])

/-- Stream-level `_next_token`. -/
def nextTokA (fn : String) (sb : Bool) : Nat → List Char → Nat →
    Except TokError (TokValue × List Char × Nat)
  | 0, _, _ => .error .fuel
  | _ + 1, [], ln => .ok ((.EOF, none), [], ln)
  | f + 1, c :: rest, ln =>
    if c = '{' then .ok ((.BRACE_OPEN, some "\x7b"), rest, ln)
    else if c = '}' then .ok ((.BRACE_CLOSE, some "\x7d"), rest, ln)
    else if c = ':' then .ok ((.COLON, some ":"), rest, ln)
    else if c = '+' then .ok ((.PLUS, some "+"), rest, ln)
    else if c = '=' then .ok ((.EQUALS, some "="), rest, ln)
    else if c = ']' then .ok ((.BRACK_CLOSE, some "]"), rest, ln)
    else if c = '\n' then .ok ((.NEWLINE, some "\n"), rest, ln + 1)
    else if c = ' ' ∨ c = '\t' then nextTokA fn sb f rest ln
    else if c = '/' then
      match rest with
      | [] => .error (.tse "Single slash found!" fn ln)
      | c2 :: rest2 =>
        if c2 = '/' then
          match commentA f rest2 with
          | .error e => .error e
          | .ok rest3 => nextTokA fn sb f rest3 ln
        else .error (.tse "Single slash found!" fn ln)
    else if c = '"' then stringA fn f rest ln []
    else if c = '[' then
      if ¬ sb then .ok ((.BRACK_OPEN, some "["), rest, ln)
      else flagA fn f rest ln []
    else if c = '(' then parenA fn f rest ln []
    else if ¬ BARE_DISALLOWED.contains c then bareA f rest ln [c]
    else
      .error (.tse ("Unexpected character \"" ++ String.mk [c] ++ "\"!") fn ln)

/-- Stream-level `tokenize`: each token request is made with the fuel the
concrete wrapper would compute, namely (stream length) + 2. -/
def tokenizeA (fn : String) (sb : Bool) : Nat → List Char → Nat →
    Except TokError (List TokValue × Nat)
  | 0, _, _ => .error .fuel
  | f + 1, cs, ln =>
    match nextTokA fn sb (cs.length + 2) cs ln with
    | .error e => .error e
    | .ok (tv, cs', ln') =>
      if tv.1 = .EOF then .ok ([tv], ln')
      else
        match tokenizeA fn sb f cs' ln' with
        | .error e => .error e
        | .ok (l, lnf) => .ok (tv :: l, lnf)

/-!
## Characterizing `_next_char` on the stream abstraction
-/

/-- On all-string chunk lists, `chunkLen` is the number of characters. -/
theorem chunkLen_eq_flat (l : List Chunk) (h : l.all Chunk.isStr = true) :
    chunkLen l = (chunkFlat l).length := by
  induction l with
  | nil => rfl
  | cons c rest ih =>
    cases c with
    | str s =>
      simp only [List.all_cons, Bool.and_eq_true] at h
      simp [chunkLen, chunkFlat, ih h.2]
    | other => simp [List.all_cons, Chunk.isStr] at h

/-- A string's `length` is the length of its character list. -/
theorem str_length_data (s : String) : s.length = s.data.length := rfl

/-- What the empty-chunk-skipping loop produces on an all-string list. -/
theorem skipEmptyChunks_spec (l : List Chunk) (h : l.all Chunk.isStr = true) :
    (chunkFlat l = [] → skipEmptyChunks l = .ok none) ∧
    (∀ c cs, chunkFlat l = c :: cs →
      ∃ csl rest, skipEmptyChunks l = .ok (some (csl, rest)) ∧
        csl ++ chunkFlat rest = c :: cs ∧ 0 < csl.length ∧
        rest.all Chunk.isStr = true) := by
  induction l with
  | nil => exact ⟨fun _ => rfl, fun c cs hc => by simp [chunkFlat] at hc⟩
  | cons ck rest ih =>
    cases ck with
    | str s =>
      simp only [List.all_cons, Bool.and_eq_true] at h
      rcases ih h.2 with ⟨ih0, ih1⟩
      have hstep : skipEmptyChunks (Chunk.str s :: rest) =
          if 0 < s.length then .ok (some (s.data, rest))
          else skipEmptyChunks rest := rfl
      by_cases hs : 0 < s.length
      · rw [hstep, if_pos hs]
        constructor
        · intro hflat
          rw [str_length_data] at hs
          simp only [chunkFlat, List.append_eq_nil] at hflat
          rw [hflat.1] at hs
          exact absurd hs (by simp)
        · intro c cs hc
          refine ⟨s.data, rest, rfl, ?_, ?_, h.2⟩
          · simpa [chunkFlat] using hc
          · rw [str_length_data] at hs
            exact hs
      · have hsd : s.data = [] := by
          have h0 : s.length = 0 := Nat.eq_zero_of_not_pos hs
          rw [str_length_data] at h0
          exact List.length_eq_zero.mp h0
        rw [hstep, if_neg hs]
        constructor
        · intro hflat
          simp only [chunkFlat, hsd, List.nil_append] at hflat
          exact ih0 hflat
        · intro c cs hc
          simp only [chunkFlat, hsd, List.nil_append] at hc
          exact ih1 c cs hc
    | other => simp [List.all_cons, Chunk.isStr] at h

/-- `pyGet` at an in-range non-negative index is list indexing. -/
theorem pyGet_eq_getElem (l : List Char) (i : Int) (h0 : 0 ≤ i)
    (hn : i.toNat < l.length) : pyGet l i = l[i.toNat] := by
  rw [pyGet, if_pos h0]
  exact List.getD_eq_getElem _ _ hn

/-- `_next_char` step equation: reading inside the current chunk. -/
theorem Tokenizer.next_char_in (t : Tokenizer)
    (h : t.char_index + 1 < (t.cur_chunk.length : Int)) :
    t.next_char = .ok (some (pyGet t.cur_chunk (t.char_index + 1)),
      { t with char_index := t.char_index + 1 }) := by
  rw [Tokenizer.next_char, if_pos h]

/-- `_next_char` step equation: exhausted chunk, no more chunks. -/
theorem Tokenizer.next_char_end (t : Tokenizer)
    (h : ¬ t.char_index + 1 < (t.cur_chunk.length : Int))
    (h2 : t.chunk_iter = []) :
    t.next_char = .ok (none, { t with char_index := t.char_index + 1 }) := by
  rw [Tokenizer.next_char, if_neg h, h2]

/-- `_next_char` step equation: pulling a non-empty string chunk. -/
theorem Tokenizer.next_char_pull (t : Tokenizer) (s : String) (rest : List Chunk)
    (h : ¬ t.char_index + 1 < (t.cur_chunk.length : Int))
    (h2 : t.chunk_iter = Chunk.str s :: rest) (hs : 0 < s.length) :
    t.next_char = .ok (some (pyGet s.data 0),
      { t with cur_chunk := s.data, chunk_iter := rest, char_index := 0 }) := by
  rw [Tokenizer.next_char, if_neg h, h2]
  simp only [if_pos hs]

/-- `_next_char` step equation: pulling an empty chunk, all following skipped
chunks empty too. -/
theorem Tokenizer.next_char_pull_none (t : Tokenizer) (s : String) (rest : List Chunk)
    (h : ¬ t.char_index + 1 < (t.cur_chunk.length : Int))
    (h2 : t.chunk_iter = Chunk.str s :: rest) (hs : ¬ 0 < s.length)
    (hskip : skipEmptyChunks rest = .ok none) :
    t.next_char = .ok (none,
      { t with cur_chunk := s.data, chunk_iter := [], char_index := 0 }) := by
  rw [Tokenizer.next_char, if_neg h, h2]
  simp only [if_neg hs, hskip]

/-- `_next_char` step equation: pulling an empty chunk, then skipping to a
non-empty one. -/
theorem Tokenizer.next_char_pull_some (t : Tokenizer) (s : String)
    (rest rest' : List Chunk) (cs : List Char)
    (h : ¬ t.char_index + 1 < (t.cur_chunk.length : Int))
    (h2 : t.chunk_iter = Chunk.str s :: rest) (hs : ¬ 0 < s.length)
    (hskip : skipEmptyChunks rest = .ok (some (cs, rest'))) :
    t.next_char = .ok (some (pyGet cs 0),
      { t with cur_chunk := cs, chunk_iter := rest', char_index := 0 }) := by
  rw [Tokenizer.next_char, if_neg h, h2]
  simp only [if_neg hs, hskip]

/-- `_next_char` on a reachable state behaves as popping the head of the
stream: it returns the head character (or the EOF sentinel), the new
stream is the tail, line, filename and mode are untouched, and an
immediately following pushback restores the original stream. -/
theorem Tokenizer.next_char_spec (t : Tokenizer) (h : t.Inv) :
    ∃ t', t.next_char = .ok (t.stream.head?, t') ∧
      t'.stream = t.stream.tail ∧ t'.Inv ∧ 0 ≤ t'.char_index ∧
      t'.line_num = t.line_num ∧ t'.filename = t.filename ∧
      t'.string_bracket = t.string_bracket ∧ t'.unget.stream = t.stream := by
  obtain ⟨hidx, hall⟩ := h
  have h0i : (0 : Int) ≤ t.char_index + 1 := by omega
  have hm1i : (-1 : Int) ≤ t.char_index + 1 := by omega
  have h00 : (0 : Int) ≤ 0 := by decide
  have hm10 : (-1 : Int) ≤ 0 := by decide
  by_cases hlt : t.char_index + 1 < (t.cur_chunk.length : Int)
  · -- still inside the current chunk
    have hn : (t.char_index + 1).toNat < t.cur_chunk.length := by omega
    have hstream : t.stream = pyGet t.cur_chunk (t.char_index + 1) ::
        (t.cur_chunk.drop ((t.char_index + 1).toNat + 1) ++ chunkFlat t.chunk_iter) := by
      rw [Tokenizer.stream, List.drop_eq_getElem_cons hn,
        pyGet_eq_getElem _ _ (by omega) hn]
      rfl
    refine ⟨{ t with char_index := t.char_index + 1 }, ?_, ?_, ⟨hm1i, hall⟩,
      h0i, rfl, rfl, rfl, ?_⟩
    · rw [t.next_char_in hlt, hstream]
      rfl
    · rw [hstream]
      show t.cur_chunk.drop (t.char_index + 1 + 1).toNat ++ chunkFlat t.chunk_iter = _
      have he : (t.char_index + 1 + 1).toNat = (t.char_index + 1).toNat + 1 := by omega
      rw [he]
      rfl
    · show t.cur_chunk.drop (t.char_index + 1 - 1 + 1).toNat ++ chunkFlat t.chunk_iter = _
      have he : t.char_index + 1 - 1 + 1 = t.char_index + 1 := by ring
      rw [he, Tokenizer.stream]
  · -- the current chunk is exhausted
    have hdropnil : ∀ j : Int, t.char_index + 1 ≤ j →
        t.cur_chunk.drop j.toNat = [] := fun j hj =>
      List.drop_eq_nil_of_le (by omega)
    have hstreq : t.stream = chunkFlat t.chunk_iter := by
      rw [Tokenizer.stream, hdropnil _ le_rfl]
      rfl
    match hiter : t.chunk_iter with
    | [] =>
      refine ⟨{ t with char_index := t.char_index + 1 }, ?_, ?_, ⟨hm1i, hall⟩,
        h0i, rfl, rfl, rfl, ?_⟩
      · rw [t.next_char_end hlt hiter, hstreq, hiter]
        rfl
      · show t.cur_chunk.drop (t.char_index + 1 + 1).toNat ++ chunkFlat t.chunk_iter = _
        rw [hdropnil _ (by omega), hstreq, hiter]
        rfl
      · show t.cur_chunk.drop (t.char_index + 1 - 1 + 1).toNat ++ chunkFlat t.chunk_iter = _
        have he : t.char_index + 1 - 1 + 1 = t.char_index + 1 := by ring
        rw [he, hdropnil _ le_rfl, hstreq]
        rfl
    | .other :: rest =>
      rw [hiter] at hall
      simp [Chunk.isStr] at hall
    | .str s :: rest =>
      rw [hiter] at hall
      simp only [List.all_cons, Bool.and_eq_true] at hall
      by_cases hs : 0 < s.length
      · -- the pulled chunk is non-empty
        have hsd : ∃ a as, s.data = a :: as := by
          rw [str_length_data] at hs
          cases hsdata : s.data with
          | nil => rw [hsdata] at hs; simp at hs
          | cons a as => exact ⟨a, as, rfl⟩
        obtain ⟨a, as, hsdata⟩ := hsd
        refine ⟨{ t with cur_chunk := s.data, chunk_iter := rest, char_index := 0 },
          ?_, ?_, ⟨hm10, hall.2⟩, h00, rfl, rfl, rfl, ?_⟩
        · rw [t.next_char_pull s rest hlt hiter hs, hstreq, hiter]
          simp [chunkFlat, hsdata, pyGet]
        · show s.data.drop (0 + 1 : Int).toNat ++ chunkFlat rest = _
          rw [hstreq, hiter]
          simp [chunkFlat, hsdata]
        · show s.data.drop (0 - 1 + 1 : Int).toNat ++ chunkFlat rest = _
          rw [hstreq, hiter]
          simp [chunkFlat, hsdata]
      · -- the pulled chunk is empty: the skip loop runs
        have hsdata : s.data = [] := by
          have h0 : s.length = 0 := Nat.eq_zero_of_not_pos hs
          rw [str_length_data] at h0
          exact List.length_eq_zero.mp h0
        rcases skipEmptyChunks_spec rest hall.2 with ⟨sk0, sk1⟩
        match hflat : chunkFlat rest with
        | [] =>
          refine ⟨{ t with cur_chunk := s.data, chunk_iter := [], char_index := 0 },
            ?_, ?_, ⟨hm10, rfl⟩, h00, rfl, rfl, rfl, ?_⟩
          · rw [t.next_char_pull_none s rest hlt hiter hs (sk0 hflat), hstreq, hiter]
            simp [chunkFlat, hsdata, hflat]
          · show s.data.drop (0 + 1 : Int).toNat ++ chunkFlat ([] : List Chunk) = _
            rw [hstreq, hiter]
            simp [chunkFlat, hsdata, hflat]
          · show s.data.drop (0 - 1 + 1 : Int).toNat ++ chunkFlat ([] : List Chunk) = _
            rw [hstreq, hiter]
            simp [chunkFlat, hsdata, hflat]
        | c :: cs =>
          rcases sk1 c cs hflat with ⟨csl, rest', hskip, happ, hpos, hall'⟩
          have hcsl : ∃ csl', csl = c :: csl' := by
            cases hc : csl with
            | nil => rw [hc] at hpos; simp at hpos
            | cons x xs =>
              rw [hc] at happ
              simp only [List.cons_append, List.cons.injEq] at happ
              exact ⟨xs, by rw [happ.1]⟩
          obtain ⟨csl', hcsl⟩ := hcsl
          have happ' : csl' ++ chunkFlat rest' = cs := by
            rw [hcsl] at happ
            simpa using happ
          refine ⟨{ t with cur_chunk := csl, chunk_iter := rest', char_index := 0 },
            ?_, ?_, ⟨hm10, hall'⟩, h00, rfl, rfl, rfl, ?_⟩
          · rw [t.next_char_pull_some s rest rest' csl hlt hiter hs hskip, hstreq, hiter]
            simp [chunkFlat, hsdata, hflat, hcsl, pyGet]
          · show csl.drop (0 + 1 : Int).toNat ++ chunkFlat rest' = _
            rw [hstreq, hiter]
            simp [chunkFlat, hsdata, hflat, hcsl, happ']
          · show csl.drop (0 - 1 + 1 : Int).toNat ++ chunkFlat rest' = _
            rw [hstreq, hiter]
            simp only [chunkFlat, hsdata, hflat, hcsl, List.nil_append]
            show (c :: csl').drop 0 ++ chunkFlat rest' = c :: cs
            rw [List.drop_zero, List.cons_append, happ']

@[simp] theorem Tokenizer.unget_char_index (t : Tokenizer) :
    t.unget.char_index = t.char_index - 1 := rfl

@[simp] theorem Tokenizer.unget_chunk_iter (t : Tokenizer) :
    t.unget.chunk_iter = t.chunk_iter := rfl

@[simp] theorem Tokenizer.unget_line_num (t : Tokenizer) :
    t.unget.line_num = t.line_num := rfl

@[simp] theorem Tokenizer.unget_filename (t : Tokenizer) :
    t.unget.filename = t.filename := rfl

@[simp] theorem Tokenizer.unget_string_bracket (t : Tokenizer) :
    t.unget.string_bracket = t.string_bracket := rfl

/-- Pushback right after a consume keeps the state invariant. -/
theorem Tokenizer.unget_Inv (t : Tokenizer) (h0 : 0 ≤ t.char_index)
    (h : t.Inv) : t.unget.Inv := by
  refine ⟨?_, h.2⟩
  rw [Tokenizer.unget_char_index]
  omega

/-- On a reachable state, `M` counts exactly the unconsumed characters. -/
theorem Tokenizer.M_eq_length (t : Tokenizer) (h : t.Inv) :
    t.M = t.stream.length := by
  obtain ⟨hidx, hall⟩ := h
  rw [Tokenizer.M, Tokenizer.stream, List.length_append, List.length_drop,
    chunkLen_eq_flat _ hall]
  omega

/-- One-step unfolding of the comment loop at positive fuel. -/
theorem Tokenizer.commentLoop_step (f : Nat) (t : Tokenizer) :
    t.commentLoop (f + 1) =
      match t.next_char with
      | .error e => .error e
      | .ok (none, u) => .ok u
      | .ok (some c, u) => if c = '\n' then .ok u else u.commentLoop f := rfl

/-- The comment loop simulates `commentA` on the stream abstraction. -/
theorem Tokenizer.commentLoop_sim : ∀ (f : Nat) (t : Tokenizer), t.Inv →
    (∀ e, commentA f t.stream = .error e → t.commentLoop f = .error e) ∧
    (∀ cs, commentA f t.stream = .ok cs →
      ∃ t3, t.commentLoop f = .ok t3 ∧ t3.unget.stream = cs ∧ t3.unget.Inv ∧
        t3.line_num = t.line_num ∧ t3.filename = t.filename ∧
        t3.string_bracket = t.string_bracket) := by
  intro f
  induction f with
  | zero =>
    intro t _
    constructor
    · intro e he
      have he' : Except.error (α := List Char) TokError.fuel = .error e := he
      injection he' with h
      rw [← h]
      rfl
    · intro cs hcs
      exact Except.noConfusion
        (show Except.error (α := List Char) TokError.fuel = .ok cs from hcs)
  | succ f ih =>
    intro t hinv
    obtain ⟨t', hnc, hst, hinv', hix0, hln, hfn, hsb, hug⟩ := t.next_char_spec hinv
    cases hs : t.stream with
    | nil =>
      rw [hs] at hnc hug
      simp only [List.head?_nil] at hnc
      have hcl : t.commentLoop (f + 1) = .ok t' := by
        rw [Tokenizer.commentLoop_step, hnc]
      constructor
      · intro e he
        exact Except.noConfusion
          (show Except.ok ([] : List Char) = .error e from he)
      · intro cs hcs
        have hcs' : Except.ok ([] : List Char) = .ok cs := hcs
        injection hcs' with h
        refine ⟨t', hcl, ?_, ?_, hln, hfn, hsb⟩
        · rw [hug, ← h]
        · exact t'.unget_Inv hix0 hinv'
    | cons c rest =>
      rw [hs] at hnc hst hug
      simp only [List.head?_cons, List.tail_cons] at hnc hst
      by_cases hc : c = '\n'
      · have hcl : t.commentLoop (f + 1) = .ok t' := by
          rw [Tokenizer.commentLoop_step, hnc]
          show (if c = '\n' then Except.ok t' else t'.commentLoop f) = Except.ok t'
          rw [if_pos hc]
        have hA : commentA (f + 1) (c :: rest) = .ok (c :: rest) := by
          rw [commentA, if_pos hc]
        constructor
        · intro e he
          rw [hA] at he
          exact Except.noConfusion he
        · intro cs hcs
          rw [hA] at hcs
          injection hcs with h
          refine ⟨t', hcl, ?_, ?_, hln, hfn, hsb⟩
          · rw [hug, h]
          · exact t'.unget_Inv hix0 hinv'
      · have hcl : t.commentLoop (f + 1) = t'.commentLoop f := by
          rw [Tokenizer.commentLoop_step, hnc]
          show (if c = '\n' then Except.ok t' else t'.commentLoop f) = t'.commentLoop f
          rw [if_neg hc]
        have hA : commentA (f + 1) (c :: rest) = commentA f rest := by
          rw [commentA, if_neg hc]
        rcases ih t' hinv' with ⟨ihe, ihok⟩
        constructor
        · intro e he
          rw [hA] at he
          rw [hcl]
          exact ihe e (by rw [hst]; exact he)
        · intro cs hcs
          rw [hA] at hcs
          rcases ihok cs (by rw [hst]; exact hcs) with ⟨t3, h1, h2, h3, h4, h5, h6⟩
          exact ⟨t3, by rw [hcl]; exact h1, h2, h3, by rw [h4, hln], by rw [h5, hfn],
            by rw [h6, hsb]⟩

/-- One-step unfolding of the quoted-string loop at positive fuel. -/
theorem Tokenizer.stringLoop_step (f : Nat) (t : Tokenizer) (acc : List Char) :
    t.stringLoop (f + 1) acc =
      match t.next_char with
      | .error e => .error e
      | .ok (none, t') => .error (.tse "Unterminated string!" t'.filename t'.line_num)
      | .ok (some c, t') =>
        if c = '"' then .ok ((.STRING, some (String.mk acc)), t')
        else if c = '\n' then
          Tokenizer.stringLoop f { t' with line_num := t'.line_num + 1 } (acc ++ ['\n'])
        else if c = '\\' then
          match t'.next_char with
          | .error e => .error e
          | .ok (none, t2) => .error (.tse "Unterminated string!" t2.filename t2.line_num)
          | .ok (some e, t2) =>
            if e = 'n' then t2.stringLoop f (acc ++ ['\n'])
            else if e = 't' then t2.stringLoop f (acc ++ ['\t'])
            else if e = '\n' then t2.stringLoop f acc
            else if e = '"' ∨ e = '\\' ∨ e = '/' then t2.stringLoop f (acc ++ [e])
            else t2.stringLoop f (acc ++ ['\\', e])
        else t'.stringLoop f (acc ++ [c]) := rfl

/-- Fuel-exhaustion equation of `stringA`. -/
theorem stringA_zero (fn : String) (cs : List Char) (ln : Nat) (acc : List Char) :
    stringA fn 0 cs ln acc = .error .fuel := rfl

/-- End-of-input equation of `stringA`. -/
theorem stringA_nil (fn : String) (f : Nat) (ln : Nat) (acc : List Char) :
    stringA fn (f + 1) [] ln acc = .error (.tse "Unterminated string!" fn ln) := rfl

/-- One-step unfolding of `stringA` on a non-empty stream. -/
theorem stringA_step (fn : String) (f : Nat) (c : Char) (rest : List Char)
    (ln : Nat) (acc : List Char) :
    stringA fn (f + 1) (c :: rest) ln acc =
      if c = '"' then .ok ((.STRING, some (String.mk acc)), rest, ln)
      else if c = '\n' then stringA fn f rest (ln + 1) (acc ++ ['\n'])
      else if c = '\\' then
        match rest with
        | [] => .error (.tse "Unterminated string!" fn ln)
        | e :: rest' =>
          if e = 'n' then stringA fn f rest' ln (acc ++ ['\n'])
          else if e = 't' then stringA fn f rest' ln (acc ++ ['\t'])
          else if e = '\n' then stringA fn f rest' ln acc
          else if e = '"' ∨ e = '\\' ∨ e = '/' then stringA fn f rest' ln (acc ++ [e])
          else stringA fn f rest' ln (acc ++ ['\\', e])
      else stringA fn f rest ln (acc ++ [c]) := rfl

/-- The quoted-string loop simulates `stringA` on the stream abstraction. -/
theorem Tokenizer.stringLoop_sim : ∀ (f : Nat) (t : Tokenizer) (acc : List Char)
    {fn : String} {cs0 : List Char} {ln0 : Nat}, t.Inv →
    fn = t.filename → cs0 = t.stream → ln0 = t.line_num →
    (∀ e, stringA fn f cs0 ln0 acc = .error e → t.stringLoop f acc = .error e) ∧
    (∀ r, stringA fn f cs0 ln0 acc = .ok r →
      ∃ t', t.stringLoop f acc = .ok (r.1, t') ∧ t'.stream = r.2.1 ∧
        t'.line_num = r.2.2 ∧ t'.Inv ∧ t'.filename = fn ∧
        t'.string_bracket = t.string_bracket) := by
  intro f
  induction f with
  | zero =>
    intro t acc fn cs0 ln0 _ _ _ _
    refine ⟨fun e he => ?_, fun r hr => ?_⟩
    · rw [stringA_zero] at he
      injection he with h
      rw [← h]
      rfl
    · rw [stringA_zero] at hr
      exact Except.noConfusion hr
  | succ f ih =>
    intro t acc fn cs0 ln0 hinv hfn0 hcs0 hln0
    subst hfn0
    subst hcs0
    subst hln0
    obtain ⟨t', hnc, hst, hinv', hix0, hln, hfn, hsb, hug⟩ := t.next_char_spec hinv
    cases hs : t.stream with
    | nil =>
      rw [hs] at hnc
      simp only [List.head?_nil] at hnc
      have hcl : t.stringLoop (f + 1) acc =
          .error (.tse "Unterminated string!" t'.filename t'.line_num) := by
        rw [Tokenizer.stringLoop_step, hnc]
      refine ⟨fun e he => ?_, fun r hr => ?_⟩
      · rw [stringA_nil] at he
        injection he with h
        rw [hcl, hfn, hln, ← h]
      · rw [stringA_nil] at hr
        exact Except.noConfusion hr
    | cons c rest =>
      rw [hs] at hnc hst hug
      simp only [List.head?_cons, List.tail_cons] at hnc hst
      by_cases h1 : c = '"'
      · -- closing quote: return the decoded string
        have hcl : t.stringLoop (f + 1) acc =
            .ok ((.STRING, some (String.mk acc)), t') := by
          rw [Tokenizer.stringLoop_step, hnc]
          dsimp only
          rw [if_pos h1]
        have hA : stringA t.filename (f + 1) (c :: rest) t.line_num acc =
            .ok ((.STRING, some (String.mk acc)), rest, t.line_num) := by
          rw [stringA_step, if_pos h1]
        refine ⟨fun e he => ?_, fun r hr => ?_⟩
        · rw [hA] at he
          exact Except.noConfusion he
        · rw [hA] at hr
          injection hr with h
          subst h
          exact ⟨t', hcl, hst, hln, hinv', hfn, hsb⟩
      · by_cases h2 : c = '\n'
        · -- raw newline inside the string: count the line, keep the char
          have hcl : t.stringLoop (f + 1) acc =
              Tokenizer.stringLoop f { t' with line_num := t'.line_num + 1 }
                (acc ++ ['\n']) := by
            rw [Tokenizer.stringLoop_step, hnc]
            dsimp only
            rw [if_neg h1, if_pos h2]
          have hA : stringA t.filename (f + 1) (c :: rest) t.line_num acc =
              stringA t.filename f rest (t.line_num + 1) (acc ++ ['\n']) := by
            rw [stringA_step, if_neg h1, if_pos h2]
          rcases ih { t' with line_num := t'.line_num + 1 } (acc ++ ['\n'])
              hinv' hfn.symm hst.symm
              (show t.line_num + 1 = t'.line_num + 1 by rw [hln]) with ⟨ihe, ihok⟩
          refine ⟨fun e he => ?_, fun r hr => ?_⟩
          · rw [hA] at he
            rw [hcl]
            exact ihe e he
          · rw [hA] at hr
            rcases ihok r hr with ⟨u', k1, k2, k3, k4, k5, k6⟩
            exact ⟨u', by rw [hcl]; exact k1, k2, k3, k4, k5, k6.trans hsb⟩
        · by_cases h3 : c = '\\'
          · -- escape: read the next character
            obtain ⟨t2, hnc2, hst2, hinv2, hix2, hln2, hfn2, hsb2, hug2⟩ :=
              t'.next_char_spec hinv'
            rw [hst] at hnc2 hst2 hug2
            cases hr2 : rest with
            | nil =>
              subst hr2
              simp only [List.head?_nil] at hnc2
              have hcl : t.stringLoop (f + 1) acc =
                  .error (.tse "Unterminated string!" t2.filename t2.line_num) := by
                rw [Tokenizer.stringLoop_step, hnc]
                dsimp only
                rw [if_neg h1, if_neg h2, if_pos h3, hnc2]
              have hA : stringA t.filename (f + 1) (c :: ([] : List Char)) t.line_num acc =
                  .error (.tse "Unterminated string!" t.filename t.line_num) := by
                rw [stringA_step, if_neg h1, if_neg h2, if_pos h3]
              refine ⟨fun e he => ?_, fun r hr => ?_⟩
              · rw [hA] at he
                injection he with h
                rw [hcl, hfn2, hfn, hln2, hln, ← h]
              · rw [hA] at hr
                exact Except.noConfusion hr
            | cons e2 rest2 =>
              subst hr2
              simp only [List.head?_cons, List.tail_cons] at hnc2 hst2
              have hcl0 : t.stringLoop (f + 1) acc =
                  (if e2 = 'n' then t2.stringLoop f (acc ++ ['\n'])
                   else if e2 = 't' then t2.stringLoop f (acc ++ ['\t'])
                   else if e2 = '\n' then t2.stringLoop f acc
                   else if e2 = '"' ∨ e2 = '\\' ∨ e2 = '/' then
                     t2.stringLoop f (acc ++ [e2])
                   else t2.stringLoop f (acc ++ ['\\', e2])) := by
                rw [Tokenizer.stringLoop_step, hnc]
                dsimp only
                rw [if_neg h1, if_neg h2, if_pos h3, hnc2]
              have hA0 : stringA t.filename (f + 1) (c :: e2 :: rest2) t.line_num acc =
                  (if e2 = 'n' then stringA t.filename f rest2 t.line_num (acc ++ ['\n'])
                   else if e2 = 't' then stringA t.filename f rest2 t.line_num (acc ++ ['\t'])
                   else if e2 = '\n' then stringA t.filename f rest2 t.line_num acc
                   else if e2 = '"' ∨ e2 = '\\' ∨ e2 = '/' then
                     stringA t.filename f rest2 t.line_num (acc ++ [e2])
                   else stringA t.filename f rest2 t.line_num (acc ++ ['\\', e2])) := by
                rw [stringA_step, if_neg h1, if_neg h2, if_pos h3]
              have hIH : ∀ acc' : List Char,
                  (∀ e, stringA t.filename f rest2 t.line_num acc' = .error e →
                    t2.stringLoop f acc' = .error e) ∧
                  (∀ r, stringA t.filename f rest2 t.line_num acc' = .ok r →
                    ∃ u', t2.stringLoop f acc' = .ok (r.1, u') ∧ u'.stream = r.2.1 ∧
                      u'.line_num = r.2.2 ∧ u'.Inv ∧ u'.filename = t.filename ∧
                      u'.string_bracket = t2.string_bracket) := fun acc' =>
                ih t2 acc' hinv2 (by rw [hfn2, hfn]) hst2.symm (by rw [hln2, hln])
              have hsb2' : t2.string_bracket = t.string_bracket := hsb2.trans hsb
              by_cases q1 : e2 = 'n'
              · rw [if_pos q1] at hcl0 hA0
                rcases hIH (acc ++ ['\n']) with ⟨ihe, ihok⟩
                refine ⟨fun e he => ?_, fun r hr => ?_⟩
                · rw [hA0] at he
                  rw [hcl0]
                  exact ihe e he
                · rw [hA0] at hr
                  rcases ihok r hr with ⟨u', k1, k2, k3, k4, k5, k6⟩
                  exact ⟨u', by rw [hcl0]; exact k1, k2, k3, k4, k5, k6.trans hsb2'⟩
              · rw [if_neg q1] at hcl0 hA0
                by_cases q2 : e2 = 't'
                · rw [if_pos q2] at hcl0 hA0
                  rcases hIH (acc ++ ['\t']) with ⟨ihe, ihok⟩
                  refine ⟨fun e he => ?_, fun r hr => ?_⟩
                  · rw [hA0] at he
                    rw [hcl0]
                    exact ihe e he
                  · rw [hA0] at hr
                    rcases ihok r hr with ⟨u', k1, k2, k3, k4, k5, k6⟩
                    exact ⟨u', by rw [hcl0]; exact k1, k2, k3, k4, k5, k6.trans hsb2'⟩
                · rw [if_neg q2] at hcl0 hA0
                  by_cases q3 : e2 = '\n'
                  · rw [if_pos q3] at hcl0 hA0
                    rcases hIH acc with ⟨ihe, ihok⟩
                    refine ⟨fun e he => ?_, fun r hr => ?_⟩
                    · rw [hA0] at he
                      rw [hcl0]
                      exact ihe e he
                    · rw [hA0] at hr
                      rcases ihok r hr with ⟨u', k1, k2, k3, k4, k5, k6⟩
                      exact ⟨u', by rw [hcl0]; exact k1, k2, k3, k4, k5, k6.trans hsb2'⟩
                  · rw [if_neg q3] at hcl0 hA0
                    by_cases q4 : e2 = '"' ∨ e2 = '\\' ∨ e2 = '/'
                    · rw [if_pos q4] at hcl0 hA0
                      rcases hIH (acc ++ [e2]) with ⟨ihe, ihok⟩
                      refine ⟨fun e he => ?_, fun r hr => ?_⟩
                      · rw [hA0] at he
                        rw [hcl0]
                        exact ihe e he
                      · rw [hA0] at hr
                        rcases ihok r hr with ⟨u', k1, k2, k3, k4, k5, k6⟩
                        exact ⟨u', by rw [hcl0]; exact k1, k2, k3, k4, k5, k6.trans hsb2'⟩
                    · rw [if_neg q4] at hcl0 hA0
                      rcases hIH (acc ++ ['\\', e2]) with ⟨ihe, ihok⟩
                      refine ⟨fun e he => ?_, fun r hr => ?_⟩
                      · rw [hA0] at he
                        rw [hcl0]
                        exact ihe e he
                      · rw [hA0] at hr
                        rcases ihok r hr with ⟨u', k1, k2, k3, k4, k5, k6⟩
                        exact ⟨u', by rw [hcl0]; exact k1, k2, k3, k4, k5, k6.trans hsb2'⟩
          · -- ordinary character: append it
            have hcl : t.stringLoop (f + 1) acc = t'.stringLoop f (acc ++ [c]) := by
              rw [Tokenizer.stringLoop_step, hnc]
              dsimp only
              rw [if_neg h1, if_neg h2, if_neg h3]
            have hA : stringA t.filename (f + 1) (c :: rest) t.line_num acc =
                stringA t.filename f rest t.line_num (acc ++ [c]) := by
              rw [stringA_step, if_neg h1, if_neg h2, if_neg h3]
            rcases ih t' (acc ++ [c]) hinv' hfn.symm hst.symm hln.symm with ⟨ihe, ihok⟩
            refine ⟨fun e he => ?_, fun r hr => ?_⟩
            · rw [hA] at he
              rw [hcl]
              exact ihe e he
            · rw [hA] at hr
              rcases ihok r hr with ⟨u', k1, k2, k3, k4, k5, k6⟩
              exact ⟨u', by rw [hcl]; exact k1, k2, k3, k4, k5, k6.trans hsb⟩

/-- Fuel-exhaustion equation of `flagA`. -/
theorem flagA_zero (fn : String) (cs : List Char) (ln : Nat) (acc : List Char) :
    flagA fn 0 cs ln acc = .error .fuel := rfl

/-- End-of-input equation of `flagA`. -/
theorem flagA_nil (fn : String) (f : Nat) (ln : Nat) (acc : List Char) :
    flagA fn (f + 1) [] ln acc =
      .error (.tse "Unterminated property flag!" fn ln) := rfl

/-- One-step unfolding of `flagA` on a non-empty stream. -/
theorem flagA_step (fn : String) (f : Nat) (c : Char) (rest : List Char)
    (ln : Nat) (acc : List Char) :
    flagA fn (f + 1) (c :: rest) ln acc =
      if c = ']' then .ok ((.PROP_FLAG, some (String.mk acc)), rest, ln)
      else if c = '\n' then .error (.tse "Unexpected token NEWLINE!" fn ln)
      else flagA fn f rest ln (acc ++ [c]) := rfl

/-- One-step unfolding of the property-flag loop at positive fuel. -/
theorem Tokenizer.flagLoop_step (f : Nat) (t : Tokenizer) (acc : List Char) :
    t.flagLoop (f + 1) acc =
      match t.next_char with
      | .error e => .error e
      | .ok (none, t') =>
        .error (.tse "Unterminated property flag!" t'.filename t'.line_num)
      | .ok (some c, t') =>
        if c = ']' then .ok ((.PROP_FLAG, some (String.mk acc)), t')
        else if c = '\n' then
          .error (.tse "Unexpected token NEWLINE!" t'.filename t'.line_num)
        else t'.flagLoop f (acc ++ [c]) := rfl

/-- The property-flag loop simulates `flagA` on the stream abstraction. -/
theorem Tokenizer.flagLoop_sim : ∀ (f : Nat) (t : Tokenizer) (acc : List Char)
    {fn : String} {cs0 : List Char} {ln0 : Nat}, t.Inv →
    fn = t.filename → cs0 = t.stream → ln0 = t.line_num →
    (∀ e, flagA fn f cs0 ln0 acc = .error e → t.flagLoop f acc = .error e) ∧
    (∀ r, flagA fn f cs0 ln0 acc = .ok r →
      ∃ t', t.flagLoop f acc = .ok (r.1, t') ∧ t'.stream = r.2.1 ∧
        t'.line_num = r.2.2 ∧ t'.Inv ∧ t'.filename = fn ∧
        t'.string_bracket = t.string_bracket) := by
  intro f
  induction f with
  | zero =>
    intro t acc fn cs0 ln0 _ _ _ _
    refine ⟨fun e he => ?_, fun r hr => ?_⟩
    · rw [flagA_zero] at he
      injection he with h
      rw [← h]
      rfl
    · rw [flagA_zero] at hr
      exact Except.noConfusion hr
  | succ f ih =>
    intro t acc fn cs0 ln0 hinv hfn0 hcs0 hln0
    subst hfn0
    subst hcs0
    subst hln0
    obtain ⟨t', hnc, hst, hinv', hix0, hln, hfn, hsb, hug⟩ := t.next_char_spec hinv
    cases hs : t.stream with
    | nil =>
      rw [hs] at hnc
      simp only [List.head?_nil] at hnc
      have hcl : t.flagLoop (f + 1) acc =
          .error (.tse "Unterminated property flag!" t'.filename t'.line_num) := by
        rw [Tokenizer.flagLoop_step, hnc]
      refine ⟨fun e he => ?_, fun r hr => ?_⟩
      · rw [flagA_nil] at he
        injection he with h
        rw [hcl, hfn, hln, ← h]
      · rw [flagA_nil] at hr
        exact Except.noConfusion hr
    | cons c rest =>
      rw [hs] at hnc hst hug
      simp only [List.head?_cons, List.tail_cons] at hnc hst
      by_cases h1 : c = ']'
      · have hcl : t.flagLoop (f + 1) acc =
            .ok ((.PROP_FLAG, some (String.mk acc)), t') := by
          rw [Tokenizer.flagLoop_step, hnc]
          dsimp only
          rw [if_pos h1]
        have hA : flagA t.filename (f + 1) (c :: rest) t.line_num acc =
            .ok ((.PROP_FLAG, some (String.mk acc)), rest, t.line_num) := by
          rw [flagA_step, if_pos h1]
        refine ⟨fun e he => ?_, fun r hr => ?_⟩
        · rw [hA] at he
          exact Except.noConfusion he
        · rw [hA] at hr
          injection hr with h
          subst h
          exact ⟨t', hcl, hst, hln, hinv', hfn, hsb⟩
      · by_cases h2 : c = '\n'
        · have hcl : t.flagLoop (f + 1) acc =
              .error (.tse "Unexpected token NEWLINE!" t'.filename t'.line_num) := by
            rw [Tokenizer.flagLoop_step, hnc]
            dsimp only
            rw [if_neg h1, if_pos h2]
          have hA : flagA t.filename (f + 1) (c :: rest) t.line_num acc =
              .error (.tse "Unexpected token NEWLINE!" t.filename t.line_num) := by
            rw [flagA_step, if_neg h1, if_pos h2]
          refine ⟨fun e he => ?_, fun r hr => ?_⟩
          · rw [hA] at he
            injection he with h
            rw [hcl, hfn, hln, ← h]
          · rw [hA] at hr
            exact Except.noConfusion hr
        · have hcl : t.flagLoop (f + 1) acc = t'.flagLoop f (acc ++ [c]) := by
            rw [Tokenizer.flagLoop_step, hnc]
            dsimp only
            rw [if_neg h1, if_neg h2]
          have hA : flagA t.filename (f + 1) (c :: rest) t.line_num acc =
              flagA t.filename f rest t.line_num (acc ++ [c]) := by
            rw [flagA_step, if_neg h1, if_neg h2]
          rcases ih t' (acc ++ [c]) hinv' hfn.symm hst.symm hln.symm with ⟨ihe, ihok⟩
          refine ⟨fun e he => ?_, fun r hr => ?_⟩
          · rw [hA] at he
            rw [hcl]
            exact ihe e he
          · rw [hA] at hr
            rcases ihok r hr with ⟨u', k1, k2, k3, k4, k5, k6⟩
            exact ⟨u', by rw [hcl]; exact k1, k2, k3, k4, k5, k6.trans hsb⟩

/-- Fuel-exhaustion equation of `parenA`. -/
theorem parenA_zero (fn : String) (cs : List Char) (ln : Nat) (acc : List Char) :
    parenA fn 0 cs ln acc = .error .fuel := rfl

/-- End-of-input equation of `parenA`. -/
theorem parenA_nil (fn : String) (f : Nat) (ln : Nat) (acc : List Char) :
    parenA fn (f + 1) [] ln acc =
      .error (.tse "Unterminated parentheses!" fn ln) := rfl

/-- One-step unfolding of `parenA` on a non-empty stream. -/
theorem parenA_step (fn : String) (f : Nat) (c : Char) (rest : List Char)
    (ln : Nat) (acc : List Char) :
    parenA fn (f + 1) (c :: rest) ln acc =
      if c = ')' then .ok ((.PAREN_ARGS, some (String.mk acc)), rest, ln)
      else if c = '\n' then parenA fn f rest (ln + 1) (acc ++ ['\n'])
      else parenA fn f rest ln (acc ++ [c]) := rfl

/-- One-step unfolding of the parenthesis loop at positive fuel. -/
theorem Tokenizer.parenLoop_step (f : Nat) (t : Tokenizer) (acc : List Char) :
    t.parenLoop (f + 1) acc =
      match t.next_char with
      | .error e => .error e
      | .ok (none, t') =>
        .error (.tse "Unterminated parentheses!" t'.filename t'.line_num)
      | .ok (some c, t') =>
        if c = ')' then .ok ((.PAREN_ARGS, some (String.mk acc)), t')
        else if c = '\n' then
          Tokenizer.parenLoop f { t' with line_num := t'.line_num + 1 } (acc ++ ['\n'])
        else t'.parenLoop f (acc ++ [c]) := rfl

/-- The parenthesis loop simulates `parenA` on the stream abstraction. -/
theorem Tokenizer.parenLoop_sim : ∀ (f : Nat) (t : Tokenizer) (acc : List Char)
    {fn : String} {cs0 : List Char} {ln0 : Nat}, t.Inv →
    fn = t.filename → cs0 = t.stream → ln0 = t.line_num →
    (∀ e, parenA fn f cs0 ln0 acc = .error e → t.parenLoop f acc = .error e) ∧
    (∀ r, parenA fn f cs0 ln0 acc = .ok r →
      ∃ t', t.parenLoop f acc = .ok (r.1, t') ∧ t'.stream = r.2.1 ∧
        t'.line_num = r.2.2 ∧ t'.Inv ∧ t'.filename = fn ∧
        t'.string_bracket = t.string_bracket) := by
  intro f
  induction f with
  | zero =>
    intro t acc fn cs0 ln0 _ _ _ _
    refine ⟨fun e he => ?_, fun r hr => ?_⟩
    · rw [parenA_zero] at he
      injection he with h
      rw [← h]
      rfl
    · rw [parenA_zero] at hr
      exact Except.noConfusion hr
  | succ f ih =>
    intro t acc fn cs0 ln0 hinv hfn0 hcs0 hln0
    subst hfn0
    subst hcs0
    subst hln0
    obtain ⟨t', hnc, hst, hinv', hix0, hln, hfn, hsb, hug⟩ := t.next_char_spec hinv
    cases hs : t.stream with
    | nil =>
      rw [hs] at hnc
      simp only [List.head?_nil] at hnc
      have hcl : t.parenLoop (f + 1) acc =
          .error (.tse "Unterminated parentheses!" t'.filename t'.line_num) := by
        rw [Tokenizer.parenLoop_step, hnc]
      refine ⟨fun e he => ?_, fun r hr => ?_⟩
      · rw [parenA_nil] at he
        injection he with h
        rw [hcl, hfn, hln, ← h]
      · rw [parenA_nil] at hr
        exact Except.noConfusion hr
    | cons c rest =>
      rw [hs] at hnc hst hug
      simp only [List.head?_cons, List.tail_cons] at hnc hst
      by_cases h1 : c = ')'
      · have hcl : t.parenLoop (f + 1) acc =
            .ok ((.PAREN_ARGS, some (String.mk acc)), t') := by
          rw [Tokenizer.parenLoop_step, hnc]
          dsimp only
          rw [if_pos h1]
        have hA : parenA t.filename (f + 1) (c :: rest) t.line_num acc =
            .ok ((.PAREN_ARGS, some (String.mk acc)), rest, t.line_num) := by
          rw [parenA_step, if_pos h1]
        refine ⟨fun e he => ?_, fun r hr => ?_⟩
        · rw [hA] at he
          exact Except.noConfusion he
        · rw [hA] at hr
          injection hr with h
          subst h
          exact ⟨t', hcl, hst, hln, hinv', hfn, hsb⟩
      · by_cases h2 : c = '\n'
        · have hcl : t.parenLoop (f + 1) acc =
              Tokenizer.parenLoop f { t' with line_num := t'.line_num + 1 }
                (acc ++ ['\n']) := by
            rw [Tokenizer.parenLoop_step, hnc]
            dsimp only
            rw [if_neg h1, if_pos h2]
          have hA : parenA t.filename (f + 1) (c :: rest) t.line_num acc =
              parenA t.filename f rest (t.line_num + 1) (acc ++ ['\n']) := by
            rw [parenA_step, if_neg h1, if_pos h2]
          rcases ih { t' with line_num := t'.line_num + 1 } (acc ++ ['\n'])
              hinv' hfn.symm hst.symm
              (show t.line_num + 1 = t'.line_num + 1 by rw [hln]) with ⟨ihe, ihok⟩
          refine ⟨fun e he => ?_, fun r hr => ?_⟩
          · rw [hA] at he
            rw [hcl]
            exact ihe e he
          · rw [hA] at hr
            rcases ihok r hr with ⟨u', k1, k2, k3, k4, k5, k6⟩
            exact ⟨u', by rw [hcl]; exact k1, k2, k3, k4, k5, k6.trans hsb⟩
        · have hcl : t.parenLoop (f + 1) acc = t'.parenLoop f (acc ++ [c]) := by
            rw [Tokenizer.parenLoop_step, hnc]
            dsimp only
            rw [if_neg h1, if_neg h2]
          have hA : parenA t.filename (f + 1) (c :: rest) t.line_num acc =
              parenA t.filename f rest t.line_num (acc ++ [c]) := by
            rw [parenA_step, if_neg h1, if_neg h2]
          rcases ih t' (acc ++ [c]) hinv' hfn.symm hst.symm hln.symm with ⟨ihe, ihok⟩
          refine ⟨fun e he => ?_, fun r hr => ?_⟩
          · rw [hA] at he
            rw [hcl]
            exact ihe e he
          · rw [hA] at hr
            rcases ihok r hr with ⟨u', k1, k2, k3, k4, k5, k6⟩
            exact ⟨u', by rw [hcl]; exact k1, k2, k3, k4, k5, k6.trans hsb⟩

/-- Fuel-exhaustion equation of `bareA`. -/
theorem bareA_zero (cs : List Char) (ln : Nat) (acc : List Char) :
    bareA 0 cs ln acc = .error .fuel := rfl

/-- End-of-input equation of `bareA`: a trailing bare word is fine. -/
theorem bareA_nil (f : Nat) (ln : Nat) (acc : List Char) :
    bareA (f + 1) [] ln acc = .ok ((.STRING, some (String.mk acc)), [], ln) := rfl

/-- One-step unfolding of `bareA` on a non-empty stream. -/
theorem bareA_step (f : Nat) (c : Char) (rest : List Char) (ln : Nat)
    (acc : List Char) :
    bareA (f + 1) (c :: rest) ln acc =
      if BARE_DISALLOWED.contains c then
        .ok ((.STRING, some (String.mk acc)), c :: rest, ln)
      else bareA f rest ln (acc ++ [c]) := rfl

/-- One-step unfolding of the bare-name loop at positive fuel. -/
theorem Tokenizer.bareLoop_step (f : Nat) (t : Tokenizer) (acc : List Char) :
    t.bareLoop (f + 1) acc =
      match t.next_char with
      | .error e => .error e
      | .ok (none, t') => .ok ((.STRING, some (String.mk acc)), t')
      | .ok (some c, t') =>
        if BARE_DISALLOWED.contains c then
          .ok ((.STRING, some (String.mk acc)), t'.unget)
        else t'.bareLoop f (acc ++ [c]) := rfl

/-- The bare-name loop simulates `bareA` on the stream abstraction. -/
theorem Tokenizer.bareLoop_sim : ∀ (f : Nat) (t : Tokenizer) (acc : List Char)
    {cs0 : List Char} {ln0 : Nat}, t.Inv →
    cs0 = t.stream → ln0 = t.line_num →
    (∀ e, bareA f cs0 ln0 acc = .error e → t.bareLoop f acc = .error e) ∧
    (∀ r, bareA f cs0 ln0 acc = .ok r →
      ∃ t', t.bareLoop f acc = .ok (r.1, t') ∧ t'.stream = r.2.1 ∧
        t'.line_num = r.2.2 ∧ t'.Inv ∧ t'.filename = t.filename ∧
        t'.string_bracket = t.string_bracket) := by
  intro f
  induction f with
  | zero =>
    intro t acc cs0 ln0 _ _ _
    refine ⟨fun e he => ?_, fun r hr => ?_⟩
    · rw [bareA_zero] at he
      injection he with h
      rw [← h]
      rfl
    · rw [bareA_zero] at hr
      exact Except.noConfusion hr
  | succ f ih =>
    intro t acc cs0 ln0 hinv hcs0 hln0
    subst hcs0
    subst hln0
    obtain ⟨t', hnc, hst, hinv', hix0, hln, hfn, hsb, hug⟩ := t.next_char_spec hinv
    cases hs : t.stream with
    | nil =>
      rw [hs] at hnc hst
      simp only [List.head?_nil] at hnc
      have hcl : t.bareLoop (f + 1) acc = .ok ((.STRING, some (String.mk acc)), t') := by
        rw [Tokenizer.bareLoop_step, hnc]
      refine ⟨fun e he => ?_, fun r hr => ?_⟩
      · rw [bareA_nil] at he
        exact Except.noConfusion he
      · rw [bareA_nil] at hr
        injection hr with h
        subst h
        exact ⟨t', hcl, by rw [hst]; rfl, hln, hinv', hfn, hsb⟩
    | cons c rest =>
      rw [hs] at hnc hst hug
      simp only [List.head?_cons, List.tail_cons] at hnc hst
      by_cases h1 : BARE_DISALLOWED.contains c
      · have hcl : t.bareLoop (f + 1) acc =
            .ok ((.STRING, some (String.mk acc)), t'.unget) := by
          rw [Tokenizer.bareLoop_step, hnc]
          dsimp only
          rw [if_pos h1]
        have hA : bareA (f + 1) (c :: rest) t.line_num acc =
            .ok ((.STRING, some (String.mk acc)), c :: rest, t.line_num) := by
          rw [bareA_step, if_pos h1]
        refine ⟨fun e he => ?_, fun r hr => ?_⟩
        · rw [hA] at he
          exact Except.noConfusion he
        · rw [hA] at hr
          injection hr with h
          subst h
          exact ⟨t'.unget, hcl, hug, by rw [Tokenizer.unget_line_num, hln],
            t'.unget_Inv hix0 hinv', by rw [Tokenizer.unget_filename, hfn],
            by rw [Tokenizer.unget_string_bracket, hsb]⟩
      · have hcl : t.bareLoop (f + 1) acc = t'.bareLoop f (acc ++ [c]) := by
          rw [Tokenizer.bareLoop_step, hnc]
          dsimp only
          rw [if_neg h1]
        have hA : bareA (f + 1) (c :: rest) t.line_num acc =
            bareA f rest t.line_num (acc ++ [c]) := by
          rw [bareA_step, if_neg h1]
        rcases ih t' (acc ++ [c]) hinv' hst.symm hln.symm with ⟨ihe, ihok⟩
        refine ⟨fun e he => ?_, fun r hr => ?_⟩
        · rw [hA] at he
          rw [hcl]
          exact ihe e he
        · rw [hA] at hr
          rcases ihok r hr with ⟨u', k1, k2, k3, k4, k5, k6⟩
          exact ⟨u', by rw [hcl]; exact k1, k2, k3, k4, k5.trans hfn, k6.trans hsb⟩

/-- Fuel-exhaustion equation of `nextTokA`. -/
theorem nextTokA_zero (fn : String) (sb : Bool) (cs : List Char) (ln : Nat) :
    nextTokA fn sb 0 cs ln = .error .fuel := rfl

/-- End-of-input equation of `nextTokA`: EOF, no state change. -/
theorem nextTokA_nil (fn : String) (sb : Bool) (f : Nat) (ln : Nat) :
    nextTokA fn sb (f + 1) [] ln = .ok ((.EOF, none), [], ln) := rfl

/-- One-step unfolding of `nextTokA` on a non-empty stream. -/
theorem nextTokA_step (fn : String) (sb : Bool) (f : Nat) (c : Char)
    (rest : List Char) (ln : Nat) :
    nextTokA fn sb (f + 1) (c :: rest) ln =
      (if c = '{' then .ok ((.BRACE_OPEN, some "\x7b"), rest, ln)
      else if c = '}' then .ok ((.BRACE_CLOSE, some "\x7d"), rest, ln)
      else if c = ':' then .ok ((.COLON, some ":"), rest, ln)
      else if c = '+' then .ok ((.PLUS, some "+"), rest, ln)
      else if c = '=' then .ok ((.EQUALS, some "="), rest, ln)
      else if c = ']' then .ok ((.BRACK_CLOSE, some "]"), rest, ln)
      else if c = '\n' then .ok ((.NEWLINE, some "\n"), rest, ln + 1)
      else if c = ' ' ∨ c = '\t' then nextTokA fn sb f rest ln
      else if c = '/' then
        match rest with
        | [] => .error (.tse "Single slash found!" fn ln)
        | c2 :: rest2 =>
          if c2 = '/' then
            match commentA f rest2 with
            | .error e => .error e
            | .ok rest3 => nextTokA fn sb f rest3 ln
          else .error (.tse "Single slash found!" fn ln)
      else if c = '"' then stringA fn f rest ln []
      else if c = '[' then
        if ¬ sb then .ok ((.BRACK_OPEN, some "["), rest, ln)
        else flagA fn f rest ln []
      else if c = '(' then parenA fn f rest ln []
      else if ¬ BARE_DISALLOWED.contains c then bareA f rest ln [c]
      else .error (.tse ("Unexpected character \"" ++ String.mk [c] ++ "\"!") fn ln)) := rfl

/-- One-step unfolding of `_next_token` at positive fuel. -/
theorem Tokenizer.nextTokenF_step (f : Nat) (t : Tokenizer) :
    t.nextTokenF (f + 1) =
      match t.next_char with
      | .error e => .error e
      | .ok (none, t') => .ok ((.EOF, none), t')
      | .ok (some c, t') =>
        if c = '{' then .ok ((.BRACE_OPEN, some "\x7b"), t')
        else if c = '}' then .ok ((.BRACE_CLOSE, some "\x7d"), t')
        else if c = ':' then .ok ((.COLON, some ":"), t')
        else if c = '+' then .ok ((.PLUS, some "+"), t')
        else if c = '=' then .ok ((.EQUALS, some "="), t')
        else if c = ']' then .ok ((.BRACK_CLOSE, some "]"), t')
        else if c = '\n' then
          .ok ((.NEWLINE, some "\n"), { t' with line_num := t'.line_num + 1 })
        else if c = ' ' ∨ c = '\t' then t'.nextTokenF f
        else if c = '/' then
          match t'.next_char with
          | .error e => .error e
          | .ok (c2, t2) =>
            if c2 = some '/' then
              match t2.commentLoop f with
              | .error e => .error e
              | .ok t3 => Tokenizer.nextTokenF f t3.unget
            else .error (.tse "Single slash found!" t2.filename t2.line_num)
        else if c = '"' then t'.stringLoop f []
        else if c = '[' then
          if ¬ t'.string_bracket then .ok ((.BRACK_OPEN, some "["), t')
          else t'.flagLoop f []
        else if c = '(' then t'.parenLoop f []
        else if ¬ BARE_DISALLOWED.contains c then t'.bareLoop f [c]
        else
          .error (.tse ("Unexpected character \"" ++ String.mk [c] ++ "\"!")
            t'.filename t'.line_num) := rfl

/-- `_next_token` simulates `nextTokA` on the stream abstraction: with equal
fuel, both produce the same error, or the same token with matching stream,
line number, filename and mode. -/
theorem Tokenizer.nextTokenF_sim : ∀ (f : Nat) (t : Tokenizer)
    {fn : String} {sb : Bool} {cs0 : List Char} {ln0 : Nat}, t.Inv →
    fn = t.filename → sb = t.string_bracket → cs0 = t.stream → ln0 = t.line_num →
    (∀ e, nextTokA fn sb f cs0 ln0 = .error e → t.nextTokenF f = .error e) ∧
    (∀ r, nextTokA fn sb f cs0 ln0 = .ok r →
      ∃ t', t.nextTokenF f = .ok (r.1, t') ∧ t'.stream = r.2.1 ∧
        t'.line_num = r.2.2 ∧ t'.Inv ∧ t'.filename = fn ∧
        t'.string_bracket = sb) := by
  intro f
  induction f with
  | zero =>
    intro t fn sb cs0 ln0 _ _ _ _ _
    refine ⟨fun e he => ?_, fun r hr => ?_⟩
    · rw [nextTokA_zero] at he
      injection he with h
      rw [← h]
      rfl
    · rw [nextTokA_zero] at hr
      exact Except.noConfusion hr
  | succ f ih =>
    intro t fn sb cs0 ln0 hinv hfn0 hsb0 hcs0 hln0
    subst hfn0
    subst hsb0
    subst hcs0
    subst hln0
    obtain ⟨t', hnc, hst, hinv', hix0, hln, hfn, hsb, hug⟩ := t.next_char_spec hinv
    cases hs : t.stream with
    | nil =>
      rw [hs] at hnc hst
      simp only [List.head?_nil] at hnc
      have hcl : t.nextTokenF (f + 1) = .ok ((.EOF, none), t') := by
        rw [Tokenizer.nextTokenF_step, hnc]
      refine ⟨fun e he => ?_, fun r hr => ?_⟩
      · rw [nextTokA_nil] at he
        exact Except.noConfusion he
      · rw [nextTokA_nil] at hr
        injection hr with h
        subst h
        exact ⟨t', hcl, by rw [hst]; rfl, hln, hinv', hfn, hsb⟩
    | cons c rest =>
      rw [hs] at hnc hst hug
      simp only [List.head?_cons, List.tail_cons] at hnc hst
      have hcl0 := Tokenizer.nextTokenF_step f t
      rw [hnc] at hcl0
      dsimp only at hcl0
      have hA0 := nextTokA_step t.filename t.string_bracket f c rest t.line_num
      by_cases g1 : c = '{'
      · rw [if_pos g1] at hcl0 hA0
        refine ⟨fun e he => ?_, fun r hr => ?_⟩
        · rw [hA0] at he
          exact Except.noConfusion he
        · rw [hA0] at hr
          injection hr with h
          subst h
          exact ⟨t', hcl0, hst, hln, hinv', hfn, hsb⟩
      · rw [if_neg g1] at hcl0 hA0
        by_cases g2 : c = '}'
        · rw [if_pos g2] at hcl0 hA0
          refine ⟨fun e he => ?_, fun r hr => ?_⟩
          · rw [hA0] at he
            exact Except.noConfusion he
          · rw [hA0] at hr
            injection hr with h
            subst h
            exact ⟨t', hcl0, hst, hln, hinv', hfn, hsb⟩
        · rw [if_neg g2] at hcl0 hA0
          by_cases g3 : c = ':'
          · rw [if_pos g3] at hcl0 hA0
            refine ⟨fun e he => ?_, fun r hr => ?_⟩
            · rw [hA0] at he
              exact Except.noConfusion he
            · rw [hA0] at hr
              injection hr with h
              subst h
              exact ⟨t', hcl0, hst, hln, hinv', hfn, hsb⟩
          · rw [if_neg g3] at hcl0 hA0
            by_cases g4 : c = '+'
            · rw [if_pos g4] at hcl0 hA0
              refine ⟨fun e he => ?_, fun r hr => ?_⟩
              · rw [hA0] at he
                exact Except.noConfusion he
              · rw [hA0] at hr
                injection hr with h
                subst h
                exact ⟨t', hcl0, hst, hln, hinv', hfn, hsb⟩
            · rw [if_neg g4] at hcl0 hA0
              by_cases g5 : c = '='
              · rw [if_pos g5] at hcl0 hA0
                refine ⟨fun e he => ?_, fun r hr => ?_⟩
                · rw [hA0] at he
                  exact Except.noConfusion he
                · rw [hA0] at hr
                  injection hr with h
                  subst h
                  exact ⟨t', hcl0, hst, hln, hinv', hfn, hsb⟩
              · rw [if_neg g5] at hcl0 hA0
                by_cases g6 : c = ']'
                · rw [if_pos g6] at hcl0 hA0
                  refine ⟨fun e he => ?_, fun r hr => ?_⟩
                  · rw [hA0] at he
                    exact Except.noConfusion he
                  · rw [hA0] at hr
                    injection hr with h
                    subst h
                    exact ⟨t', hcl0, hst, hln, hinv', hfn, hsb⟩
                · rw [if_neg g6] at hcl0 hA0
                  by_cases g7 : c = '\n'
                  · rw [if_pos g7] at hcl0 hA0
                    refine ⟨fun e he => ?_, fun r hr => ?_⟩
                    · rw [hA0] at he
                      exact Except.noConfusion he
                    · rw [hA0] at hr
                      injection hr with h
                      subst h
                      refine ⟨{ t' with line_num := t'.line_num + 1 }, hcl0, hst, ?_, hinv', hfn, hsb⟩
                      show t'.line_num + 1 = t.line_num + 1
                      rw [hln]
                  · rw [if_neg g7] at hcl0 hA0
                    by_cases g8 : c = ' ' ∨ c = '\t'
                    · rw [if_pos g8] at hcl0 hA0
                      rcases ih t' hinv' hfn.symm hsb.symm hst.symm hln.symm with ⟨ihe, ihok⟩
                      refine ⟨fun e he => ?_, fun r hr => ?_⟩
                      · rw [hA0] at he
                        rw [hcl0]
                        exact ihe e he
                      · rw [hA0] at hr
                        rcases ihok r hr with ⟨u', k1, k2, k3, k4, k5, k6⟩
                        exact ⟨u', by rw [hcl0]; exact k1, k2, k3, k4, k5, k6⟩
                    · rw [if_neg g8] at hcl0 hA0
                      by_cases g9 : c = '/'
                      · rw [if_pos g9] at hcl0 hA0
                        obtain ⟨t2, hnc2, hst2, hinv2, hix2, hln2, hfn2, hsb2, hug2⟩ :=
                          t'.next_char_spec hinv'
                        rw [hst] at hnc2 hst2 hug2
                        cases hr2 : rest with
                        | nil =>
                          subst hr2
                          simp only [List.head?_nil] at hnc2
                          rw [hnc2] at hcl0
                          dsimp only at hcl0
                          dsimp only at hA0
                          rw [if_neg (by decide : ¬ ((none : Option Char) = some '/'))] at hcl0
                          refine ⟨fun e he => ?_, fun r hr => ?_⟩
                          · rw [hA0] at he
                            injection he with h
                            rw [hcl0, hfn2, hfn, hln2, hln, ← h]
                          · rw [hA0] at hr
                            exact Except.noConfusion hr
                        | cons c2 rest2 =>
                          subst hr2
                          simp only [List.head?_cons, List.tail_cons] at hnc2 hst2
                          rw [hnc2] at hcl0
                          dsimp only at hcl0
                          dsimp only at hA0
                          by_cases hc2 : c2 = '/'
                          · rw [if_pos (show (some c2 = some '/') by rw [hc2])] at hcl0
                            rw [if_pos hc2] at hA0
                            rcases Tokenizer.commentLoop_sim f t2 hinv2 with ⟨che, chok⟩
                            rw [hst2] at che chok
                            cases hca : commentA f rest2 with
                            | error e' =>
                              have hcl1 : t.nextTokenF (f + 1) = .error e' := by
                                rw [hcl0, che e' hca]
                              have hA1 : nextTokA t.filename t.string_bracket (f + 1)
                                  (c :: c2 :: rest2) t.line_num = .error e' := by
                                rw [hA0, hca]
                              refine ⟨fun e he => ?_, fun r hr => ?_⟩
                              · rw [hA1] at he
                                injection he with h
                                rw [hcl1, h]
                              · rw [hA1] at hr
                                exact Except.noConfusion hr
                            | ok rest3 =>
                              rcases chok rest3 hca with ⟨t3, hc3, hu3s, hu3inv, h3ln, h3fn, h3sb⟩
                              have hcl1 : t.nextTokenF (f + 1) =
                                  Tokenizer.nextTokenF f t3.unget := by
                                rw [hcl0, hc3]
                              have hA1 : nextTokA t.filename t.string_bracket (f + 1)
                                  (c :: c2 :: rest2) t.line_num =
                                  nextTokA t.filename t.string_bracket f rest3 t.line_num := by
                                rw [hA0, hca]
                              rcases ih t3.unget hu3inv
                                  (show t.filename = t3.unget.filename by
                                    rw [Tokenizer.unget_filename, h3fn, hfn2, hfn])
                                  (show t.string_bracket = t3.unget.string_bracket by
                                    rw [Tokenizer.unget_string_bracket, h3sb, hsb2, hsb])
                                  hu3s.symm
                                  (show t.line_num = t3.unget.line_num by
                                    rw [Tokenizer.unget_line_num, h3ln, hln2, hln])
                                  with ⟨ihe, ihok⟩
                              refine ⟨fun e he => ?_, fun r hr => ?_⟩
                              · rw [hA1] at he
                                rw [hcl1]
                                exact ihe e he
                              · rw [hA1] at hr
                                rcases ihok r hr with ⟨u', k1, k2, k3, k4, k5, k6⟩
                                exact ⟨u', by rw [hcl1]; exact k1, k2, k3, k4, k5, k6⟩
                          · rw [if_neg (show ¬ (some c2 = some '/') by
                                intro hh; exact hc2 (Option.some.injEq c2 '/' ▸ hh))] at hcl0
                            rw [if_neg hc2] at hA0
                            refine ⟨fun e he => ?_, fun r hr => ?_⟩
                            · rw [hA0] at he
                              injection he with h
                              rw [hcl0, hfn2, hfn, hln2, hln, ← h]
                            · rw [hA0] at hr
                              exact Except.noConfusion hr
                      · rw [if_neg g9] at hcl0 hA0
                        by_cases g10 : c = '"'
                        · rw [if_pos g10] at hcl0 hA0
                          rcases Tokenizer.stringLoop_sim f t' [] hinv'
                            hfn.symm hst.symm hln.symm with ⟨she, shok⟩
                          refine ⟨fun e he => ?_, fun r hr => ?_⟩
                          · rw [hA0] at he
                            rw [hcl0]
                            exact she e he
                          · rw [hA0] at hr
                            rcases shok r hr with ⟨u', k1, k2, k3, k4, k5, k6⟩
                            exact ⟨u', by rw [hcl0]; exact k1, k2, k3, k4, k5, k6.trans hsb⟩
                        · rw [if_neg g10] at hcl0 hA0
                          by_cases g11 : c = '['
                          · rw [if_pos g11] at hcl0 hA0
                            by_cases hbr : t.string_bracket = true
                            · have hbr' : t'.string_bracket = true := hsb.trans hbr
                              rw [if_neg (not_not_intro hbr')] at hcl0
                              rw [if_neg (not_not_intro hbr)] at hA0
                              rcases Tokenizer.flagLoop_sim f t' [] hinv'
                                hfn.symm hst.symm hln.symm with ⟨fhe, fhok⟩
                              refine ⟨fun e he => ?_, fun r hr => ?_⟩
                              · rw [hA0] at he
                                rw [hcl0]
                                exact fhe e he
                              · rw [hA0] at hr
                                rcases fhok r hr with ⟨u', k1, k2, k3, k4, k5, k6⟩
                                exact ⟨u', by rw [hcl0]; exact k1, k2, k3, k4, k5, k6.trans hsb⟩
                            · have hbr' : ¬ t'.string_bracket = true := by
                                rw [hsb]
                                exact hbr
                              rw [if_pos hbr'] at hcl0
                              rw [if_pos hbr] at hA0
                              refine ⟨fun e he => ?_, fun r hr => ?_⟩
                              · rw [hA0] at he
                                exact Except.noConfusion he
                              · rw [hA0] at hr
                                injection hr with h
                                subst h
                                exact ⟨t', hcl0, hst, hln, hinv', hfn, hsb⟩
                          · rw [if_neg g11] at hcl0 hA0
                            by_cases g12 : c = '('
                            · rw [if_pos g12] at hcl0 hA0
                              rcases Tokenizer.parenLoop_sim f t' [] hinv'
                                hfn.symm hst.symm hln.symm with ⟨phe, phok⟩
                              refine ⟨fun e he => ?_, fun r hr => ?_⟩
                              · rw [hA0] at he
                                rw [hcl0]
                                exact phe e he
                              · rw [hA0] at hr
                                rcases phok r hr with ⟨u', k1, k2, k3, k4, k5, k6⟩
                                exact ⟨u', by rw [hcl0]; exact k1, k2, k3, k4, k5, k6.trans hsb⟩
                            · rw [if_neg g12] at hcl0 hA0
                              by_cases g13 : BARE_DISALLOWED.contains c
                              · rw [if_neg (not_not_intro g13)] at hcl0 hA0
                                refine ⟨fun e he => ?_, fun r hr => ?_⟩
                                · rw [hA0] at he
                                  injection he with h
                                  rw [hcl0, hfn, hln, ← h]
                                · rw [hA0] at hr
                                  exact Except.noConfusion hr
                              · rw [if_pos g13] at hcl0 hA0
                                rcases Tokenizer.bareLoop_sim f t' [c] hinv'
                                  hst.symm hln.symm with ⟨bhe, bhok⟩
                                refine ⟨fun e he => ?_, fun r hr => ?_⟩
                                · rw [hA0] at he
                                  rw [hcl0]
                                  exact bhe e he
                                · rw [hA0] at hr
                                  rcases bhok r hr with ⟨u', k1, k2, k3, k4, k5, k6⟩
                                  exact ⟨u', by rw [hcl0]; exact k1, k2, k3, k4,
                                    k5.trans hfn, k6.trans hsb⟩

/-!
## Wrapper-level correspondence
-/

/-- `next_token` (fuel `M + 2`) against the abstract machine at fuel
(stream length) + 2. -/
theorem Tokenizer.next_token_sim (t : Tokenizer) (h : t.Inv) :
    (∀ e, nextTokA t.filename t.string_bracket (t.stream.length + 2) t.stream
        t.line_num = .error e → t.next_token = .error e) ∧
    (∀ r, nextTokA t.filename t.string_bracket (t.stream.length + 2) t.stream
        t.line_num = .ok r →
      ∃ t', t.next_token = .ok (r.1, t') ∧ t'.stream = r.2.1 ∧
        t'.line_num = r.2.2 ∧ t'.Inv ∧ t'.filename = t.filename ∧
        t'.string_bracket = t.string_bracket) := by
  have hm : t.stream.length + 2 = t.M + 2 := by rw [t.M_eq_length h]
  rw [hm]
  exact Tokenizer.nextTokenF_sim (t.M + 2) t h rfl rfl rfl rfl

/-- Inversion: a successful `next_token` is reflected in the abstract
machine, and the observable fields of the new state are determined by the
stream abstraction. -/
theorem Tokenizer.next_token_ok (t : Tokenizer) (h : t.Inv) (tv : TokValue)
    (t' : Tokenizer) (hok : t.next_token = .ok (tv, t')) :
    nextTokA t.filename t.string_bracket (t.stream.length + 2) t.stream
      t.line_num = .ok (tv, t'.stream, t'.line_num) ∧ t'.Inv ∧
      t'.filename = t.filename ∧ t'.string_bracket = t.string_bracket := by
  rcases t.next_token_sim h with ⟨he, hk⟩
  cases hA : nextTokA t.filename t.string_bracket (t.stream.length + 2) t.stream
      t.line_num with
  | error e =>
    rw [he e hA] at hok
    exact Except.noConfusion hok
  | ok r =>
    rcases hk r hA with ⟨u', k1, k2, k3, k4, k5, k6⟩
    rw [hok] at k1
    injection k1 with k1'
    obtain ⟨r1, r2, r3⟩ := r
    simp only [Prod.mk.injEq] at k1'
    obtain ⟨h1, h2⟩ := k1'
    subst h1
    subst h2
    refine ⟨?_, k4, k5, k6⟩
    rw [k2, k3]

/-- Fuel-exhaustion equation of `tokenizeF`. -/
theorem Tokenizer.tokenizeF_zero (t : Tokenizer) :
    t.tokenizeF 0 = .error .fuel := rfl

/-- One-step unfolding of `tokenizeF` at positive fuel. -/
theorem Tokenizer.tokenizeF_step (f : Nat) (t : Tokenizer) :
    t.tokenizeF (f + 1) =
      match t.next_token with
      | .error e => .error e
      | .ok (tv, t') =>
        if tv.1 = .EOF then .ok ([tv], t'.line_num)
        else
          match t'.tokenizeF f with
          | .error e => .error e
          | .ok (l, ln) => .ok (tv :: l, ln) := rfl

/-- Fuel-exhaustion equation of `tokenizeA`. -/
theorem tokenizeA_zero (fn : String) (sb : Bool) (cs : List Char) (ln : Nat) :
    tokenizeA fn sb 0 cs ln = .error .fuel := rfl

/-- One-step unfolding of `tokenizeA` at positive fuel. -/
theorem tokenizeA_step (fn : String) (sb : Bool) (f : Nat) (cs : List Char)
    (ln : Nat) :
    tokenizeA fn sb (f + 1) cs ln =
      match nextTokA fn sb (cs.length + 2) cs ln with
      | .error e => .error e
      | .ok (tv, cs', ln') =>
        if tv.1 = .EOF then .ok ([tv], ln')
        else
          match tokenizeA fn sb f cs' ln' with
          | .error e => .error e
          | .ok (l, lnf) => .ok (tv :: l, lnf) := rfl

/-- The driver `tokenizeF` is fully determined by the stream abstraction:
on reachable states it equals the abstract driver. -/
theorem Tokenizer.tokenizeF_eq : ∀ (f : Nat) (t : Tokenizer), t.Inv →
    t.tokenizeF f = tokenizeA t.filename t.string_bracket f t.stream t.line_num := by
  intro f
  induction f with
  | zero =>
    intro t _
    rfl
  | succ f ih =>
    intro t h
    rcases t.next_token_sim h with ⟨he, hk⟩
    rw [Tokenizer.tokenizeF_step, tokenizeA_step]
    cases hA : nextTokA t.filename t.string_bracket (t.stream.length + 2) t.stream
        t.line_num with
    | error e =>
      rw [he e hA]
    | ok r =>
      rcases hk r hA with ⟨u', k1, k2, k3, k4, k5, k6⟩
      rw [k1]
      obtain ⟨tv, cs', ln'⟩ := r
      dsimp only
      by_cases hEOF : tv.1 = Token.EOF
      · rw [if_pos hEOF, if_pos hEOF, k3]
      · rw [if_neg hEOF, if_neg hEOF]
        have hrec := ih u' k4
        rw [k5, k6, k2, k3] at hrec
        rw [hrec]

/-- `tokenize` against the abstract driver. -/
theorem Tokenizer.tokenize_eq (t : Tokenizer) (h : t.Inv) :
    t.tokenize = tokenizeA t.filename t.string_bracket (t.stream.length + 2)
      t.stream t.line_num := by
  have hm : t.stream.length + 2 = t.M + 2 := by rw [t.M_eq_length h]
  rw [hm]
  exact t.tokenizeF_eq (t.M + 2) h

/-- The stream of a chunk-constructed tokenizer is the chunk concatenation. -/
theorem Tokenizer.stream_fromChunks (data : List Chunk) (fn : String) (sb : Bool) :
    (Tokenizer.fromChunks data fn sb).stream = chunkFlat data := rfl

/-- The stream of a string-constructed tokenizer is the string's characters. -/
theorem Tokenizer.stream_fromString (s : String) (fn : String) (sb : Bool) :
    (Tokenizer.fromString s fn sb).stream = s.data := by
  show List.drop ((-1 : Int) + 1).toNat s.data ++ chunkFlat [] = s.data
  simp [chunkFlat]

/-- A string-constructed tokenizer starts in a reachable state. -/
theorem Tokenizer.Inv_fromString (s : String) (fn : String) (sb : Bool) :
    (Tokenizer.fromString s fn sb).Inv := ⟨le_refl _, rfl⟩

/-- A chunk-constructed tokenizer over string chunks starts reachable. -/
theorem Tokenizer.Inv_fromChunks (data : List Chunk) (fn : String) (sb : Bool)
    (h : data.all Chunk.isStr = true) :
    (Tokenizer.fromChunks data fn sb).Inv := ⟨le_refl _, h⟩

/-- Concatenating string chunks flattens their character lists. -/
theorem chunkFlat_map_str (l : List String) :
    chunkFlat (l.map Chunk.str) = (l.map String.data).flatten := by
  induction l with
  | nil => rfl
  | cons s rest ih => simp [chunkFlat, ih]

/-- The characters of `String.join` are the flattened characters. -/
theorem join_data (l : List String) :
    (String.join l).data = (l.map String.data).flatten := by
  have key : ∀ (l : List String) (s : String),
      (l.foldl (· ++ ·) s).data = s.data ++ (l.map String.data).flatten := by
    intro l
    induction l with
    | nil => intro s; simp
    | cons x rest ih =>
      intro s
      simp only [List.foldl_cons, List.map_cons, List.flatten_cons]
      rw [ih (s ++ x)]
      simp [String.data_append]
  have h0 : String.join l = l.foldl (· ++ ·) "" := rfl
  rw [h0, key l ""]
  rfl

/-- Claim C1: chunk-segmentation invariance.  Tokenizing a list of
non-empty string chunks produces exactly the same `(kind, value)` token
sequence and the same final line number as tokenizing their concatenation
supplied as a single string. -/
theorem claim_C1 (chunks : List String) (fn : String) (sb : Bool)
    (_hne : ∀ s ∈ chunks, s ≠ "") :
    (Tokenizer.fromChunks (chunks.map Chunk.str) fn sb).tokenize =
      (Tokenizer.fromString (String.join chunks) fn sb).tokenize := by
  have h1 : (Tokenizer.fromChunks (chunks.map Chunk.str) fn sb).Inv :=
    Tokenizer.Inv_fromChunks _ _ _ (by simp [List.all_map, Function.comp, Chunk.isStr])
  have h2 := Tokenizer.Inv_fromString (String.join chunks) fn sb
  rw [Tokenizer.tokenize_eq _ h1, Tokenizer.tokenize_eq _ h2,
    Tokenizer.stream_fromChunks, Tokenizer.stream_fromString,
    chunkFlat_map_str, join_data]
  rfl

/-- Witness for C1 at a concrete chunking of `key value\n`. -/
theorem claim_C1_witness :
    (∀ s ∈ ["key ", "val", "ue\n"], s ≠ "") ∧
    (Tokenizer.fromChunks ((["key ", "val", "ue\n"]).map Chunk.str) "f" false).tokenize =
      (Tokenizer.fromString (String.join ["key ", "val", "ue\n"]) "f" false).tokenize :=
  ⟨by decide, claim_C1 ["key ", "val", "ue\n"] "f" false (by decide)⟩

/-!
## Consumption and line-counting facts of the stream machine
-/

/-- A successful comment scan consumes a newline-free prefix. -/
theorem commentA_facts : ∀ (f : Nat) (cs cs' : List Char),
    commentA f cs = .ok cs' →
    ∃ consumed, cs = consumed ++ cs' ∧ consumed.count '\n' = 0 := by
  intro f
  induction f with
  | zero =>
    intro cs cs' hr
    exact Except.noConfusion (show Except.error (α := List Char) TokError.fuel = .ok cs' from hr)
  | succ f ih =>
    intro cs cs' hr
    cases cs with
    | nil =>
      have hr' : Except.ok ([] : List Char) = .ok cs' := hr
      injection hr' with h
      exact ⟨[], by rw [← h]; rfl, rfl⟩
    | cons c rest =>
      rw [commentA] at hr
      by_cases hc : c = '\n'
      · rw [if_pos hc] at hr
        injection hr with h
        exact ⟨[], by rw [← h]; rfl, rfl⟩
      · rw [if_neg hc] at hr
        rcases ih rest cs' hr with ⟨consumed, hcs, hcount⟩
        refine ⟨c :: consumed, by rw [hcs]; rfl, ?_⟩
        simp only [List.count_cons, hcount]
        simp [hc]

/-- A successful quoted-string scan consumes a non-empty prefix; the line
counter never decreases, grows by at most the newlines consumed, and by
exactly that count when no backslash was consumed. -/
theorem stringA_facts : ∀ (f : Nat) (fn : String) (cs : List Char) (ln : Nat)
    (acc : List Char) (r : TokValue × List Char × Nat),
    stringA fn f cs ln acc = .ok r →
    ∃ consumed, cs = consumed ++ r.2.1 ∧ 0 < consumed.length ∧
      ln ≤ r.2.2 ∧ r.2.2 ≤ ln + consumed.count '\n' ∧
      ('\\' ∉ consumed → r.2.2 = ln + consumed.count '\n') ∧
      r.1.1 = .STRING := by
  intro f
  induction f with
  | zero =>
    intro fn cs ln acc r hr
    rw [stringA_zero] at hr
    exact Except.noConfusion hr
  | succ f ih =>
    intro fn cs ln acc r hr
    cases cs with
    | nil =>
      rw [stringA_nil] at hr
      exact Except.noConfusion hr
    | cons c rest =>
      rw [stringA_step] at hr
      by_cases h1 : c = '"'
      · rw [if_pos h1] at hr
        injection hr with h
        subst h
        subst h1
        exact ⟨['"'], rfl, by decide, le_refl _, by simp, fun _ => by simp, rfl⟩
      · rw [if_neg h1] at hr
        by_cases h2 : c = '\n'
        · rw [if_pos h2] at hr
          subst h2
          rcases ih fn rest (ln + 1) (acc ++ ['\n']) r hr with
            ⟨consumed, hcs, hpos, hle, hub, hex, hkind⟩
          have hcount : ('\n' :: consumed).count '\n' = consumed.count '\n' + 1 := by
            simp [List.count_cons]
          refine ⟨'\n' :: consumed, by rw [hcs]; rfl, by simp, by omega,
            by rw [hcount]; omega, ?_, hkind⟩
          intro hmem
          have hmem' : '\\' ∉ consumed := fun hh => hmem (List.mem_cons_of_mem _ hh)
          rw [hcount]
          have := hex hmem'
          omega
        · rw [if_neg h2] at hr
          by_cases h3 : c = '\\'
          · rw [if_pos h3] at hr
            subst h3
            cases rest with
            | nil =>
              dsimp only at hr
              exact Except.noConfusion hr
            | cons e2 rest2 =>
              dsimp only at hr
              have hstep : ∃ acc', stringA fn f rest2 ln acc' = .ok r := by
                by_cases q1 : e2 = 'n'
                · rw [if_pos q1] at hr
                  exact ⟨_, hr⟩
                · rw [if_neg q1] at hr
                  by_cases q2 : e2 = 't'
                  · rw [if_pos q2] at hr
                    exact ⟨_, hr⟩
                  · rw [if_neg q2] at hr
                    by_cases q3 : e2 = '\n'
                    · rw [if_pos q3] at hr
                      exact ⟨_, hr⟩
                    · rw [if_neg q3] at hr
                      by_cases q4 : e2 = '"' ∨ e2 = '\\' ∨ e2 = '/'
                      · rw [if_pos q4] at hr
                        exact ⟨_, hr⟩
                      · rw [if_neg q4] at hr
                        exact ⟨_, hr⟩
              rcases hstep with ⟨acc', hr'⟩
              rcases ih fn rest2 ln acc' r hr' with
                ⟨consumed, hcs, hpos, hle, hub, hex, hkind⟩
              refine ⟨'\\' :: e2 :: consumed, by rw [hcs]; rfl, by simp, hle, ?_, ?_, hkind⟩
              · have : consumed.count '\n' ≤ ('\\' :: e2 :: consumed).count '\n' := by
                  simp only [List.count_cons]
                  omega
                omega
              · intro hmem
                exact absurd (List.mem_cons_self '\\' (e2 :: consumed)) hmem
          · rw [if_neg h3] at hr
            rcases ih fn rest ln (acc ++ [c]) r hr with
              ⟨consumed, hcs, hpos, hle, hub, hex, hkind⟩
            have hcount : (c :: consumed).count '\n' = consumed.count '\n' := by
              simp [List.count_cons, h2]
            refine ⟨c :: consumed, by rw [hcs]; rfl, by simp, hle,
              by rw [hcount]; omega, ?_, hkind⟩
            intro hmem
            have hmem' : '\\' ∉ consumed := fun hh => hmem (List.mem_cons_of_mem _ hh)
            rw [hcount]
            exact hex hmem'

/-- A successful property-flag scan consumes a non-empty newline-free
prefix and leaves the line counter unchanged. -/
theorem flagA_facts : ∀ (f : Nat) (fn : String) (cs : List Char) (ln : Nat)
    (acc : List Char) (r : TokValue × List Char × Nat),
    flagA fn f cs ln acc = .ok r →
    ∃ consumed, cs = consumed ++ r.2.1 ∧ 0 < consumed.length ∧
      r.2.2 = ln ∧ consumed.count '\n' = 0 ∧ r.1.1 = .PROP_FLAG := by
  intro f
  induction f with
  | zero =>
    intro fn cs ln acc r hr
    rw [flagA_zero] at hr
    exact Except.noConfusion hr
  | succ f ih =>
    intro fn cs ln acc r hr
    cases cs with
    | nil =>
      rw [flagA_nil] at hr
      exact Except.noConfusion hr
    | cons c rest =>
      rw [flagA_step] at hr
      by_cases h1 : c = ']'
      · rw [if_pos h1] at hr
        injection hr with h
        subst h
        subst h1
        exact ⟨[']'], rfl, by decide, rfl, by decide, rfl⟩
      · rw [if_neg h1] at hr
        by_cases h2 : c = '\n'
        · rw [if_pos h2] at hr
          exact Except.noConfusion hr
        · rw [if_neg h2] at hr
          rcases ih fn rest ln (acc ++ [c]) r hr with
            ⟨consumed, hcs, hpos, hln, hcount, hkind⟩
          refine ⟨c :: consumed, by rw [hcs]; rfl, by simp, hln, ?_, hkind⟩
          simp [List.count_cons, hcount, h2]

/-- A successful parenthesis scan consumes a non-empty prefix and advances
the line counter by exactly the newlines consumed. -/
theorem parenA_facts : ∀ (f : Nat) (fn : String) (cs : List Char) (ln : Nat)
    (acc : List Char) (r : TokValue × List Char × Nat),
    parenA fn f cs ln acc = .ok r →
    ∃ consumed, cs = consumed ++ r.2.1 ∧ 0 < consumed.length ∧
      r.2.2 = ln + consumed.count '\n' ∧ r.1.1 = .PAREN_ARGS := by
  intro f
  induction f with
  | zero =>
    intro fn cs ln acc r hr
    rw [parenA_zero] at hr
    exact Except.noConfusion hr
  | succ f ih =>
    intro fn cs ln acc r hr
    cases cs with
    | nil =>
      rw [parenA_nil] at hr
      exact Except.noConfusion hr
    | cons c rest =>
      rw [parenA_step] at hr
      by_cases h1 : c = ')'
      · rw [if_pos h1] at hr
        injection hr with h
        subst h
        subst h1
        exact ⟨[')'], rfl, by decide, by simp, rfl⟩
      · rw [if_neg h1] at hr
        by_cases h2 : c = '\n'
        · rw [if_pos h2] at hr
          subst h2
          rcases ih fn rest (ln + 1) (acc ++ ['\n']) r hr with
            ⟨consumed, hcs, hpos, hln, hkind⟩
          have hcount : ('\n' :: consumed).count '\n' = consumed.count '\n' + 1 := by
            simp [List.count_cons]
          refine ⟨'\n' :: consumed, by rw [hcs]; rfl, by simp, ?_, hkind⟩
          rw [hcount]
          omega
        · rw [if_neg h2] at hr
          rcases ih fn rest ln (acc ++ [c]) r hr with
            ⟨consumed, hcs, hpos, hln, hkind⟩
          have hcount : (c :: consumed).count '\n' = consumed.count '\n' := by
            simp [List.count_cons, h2]
          refine ⟨c :: consumed, by rw [hcs]; rfl, by simp, ?_, hkind⟩
          rw [hcount]
          exact hln

/-- A bare-word scan consumes a newline-free prefix and leaves the line
counter unchanged. -/
theorem bareA_facts : ∀ (f : Nat) (cs : List Char) (ln : Nat)
    (acc : List Char) (r : TokValue × List Char × Nat),
    bareA f cs ln acc = .ok r →
    ∃ consumed, cs = consumed ++ r.2.1 ∧ r.2.2 = ln ∧
      consumed.count '\n' = 0 ∧ r.1.1 = .STRING := by
  intro f
  induction f with
  | zero =>
    intro cs ln acc r hr
    rw [bareA_zero] at hr
    exact Except.noConfusion hr
  | succ f ih =>
    intro cs ln acc r hr
    cases cs with
    | nil =>
      rw [bareA_nil] at hr
      injection hr with h
      subst h
      exact ⟨[], rfl, rfl, rfl, rfl⟩
    | cons c rest =>
      rw [bareA_step] at hr
      by_cases h1 : BARE_DISALLOWED.contains c
      · rw [if_pos h1] at hr
        injection hr with h
        subst h
        exact ⟨[], rfl, rfl, rfl, rfl⟩
      · rw [if_neg h1] at hr
        rcases ih rest ln (acc ++ [c]) r hr with ⟨consumed, hcs, hln, hcount, hkind⟩
        have hcnl : ¬ c = '\n' := by
          intro hh
          exact h1 (by rw [hh]; decide)
        refine ⟨c :: consumed, by rw [hcs]; rfl, hln, ?_, hkind⟩
        simp [List.count_cons, hcount, hcnl]

/-- A successful `nextTokA` call consumes a prefix of the stream; the line
counter never decreases, grows by at most the newlines consumed and by
exactly that count when no backslash was consumed; an EOF token is only
produced with an empty residual stream, value `None` and unchanged line;
any other token consumes at least one character. -/
theorem nextTokA_facts : ∀ (f : Nat) (fn : String) (sb : Bool) (cs : List Char)
    (ln : Nat) (r : TokValue × List Char × Nat),
    nextTokA fn sb f cs ln = .ok r →
    ∃ consumed, cs = consumed ++ r.2.1 ∧
      ln ≤ r.2.2 ∧ r.2.2 ≤ ln + consumed.count '\n' ∧
      ('\\' ∉ consumed → r.2.2 = ln + consumed.count '\n') ∧
      (r.1.1 = .EOF → r.2.1 = [] ∧ r.1.2 = none ∧ r.2.2 = ln) ∧
      (r.1.1 ≠ .EOF → 0 < consumed.length) := by
  intro f
  induction f with
  | zero =>
    intro fn sb cs ln r hr
    rw [nextTokA_zero] at hr
    exact Except.noConfusion hr
  | succ f ih =>
    intro fn sb cs ln r hr
    cases cs with
    | nil =>
      rw [nextTokA_nil] at hr
      injection hr with h
      subst h
      exact ⟨[], rfl, le_refl _, by simp, fun _ => by simp,
        fun _ => ⟨rfl, rfl, rfl⟩, fun hh => absurd rfl hh⟩
    | cons c rest =>
      rw [nextTokA_step] at hr
      by_cases g1 : c = '{'
      · rw [if_pos g1] at hr
        injection hr with h
        subst h
        subst g1
        exact ⟨['{'], rfl, le_refl _, by simp, fun _ => by simp,
          fun hh => Token.noConfusion hh, fun _ => by decide⟩
      · rw [if_neg g1] at hr
        by_cases g2 : c = '}'
        · rw [if_pos g2] at hr
          injection hr with h
          subst h
          subst g2
          exact ⟨['}'], rfl, le_refl _, by simp, fun _ => by simp,
            fun hh => Token.noConfusion hh, fun _ => by decide⟩
        · rw [if_neg g2] at hr
          by_cases g3 : c = ':'
          · rw [if_pos g3] at hr
            injection hr with h
            subst h
            subst g3
            exact ⟨[':'], rfl, le_refl _, by simp, fun _ => by simp,
              fun hh => Token.noConfusion hh, fun _ => by decide⟩
          · rw [if_neg g3] at hr
            by_cases g4 : c = '+'
            · rw [if_pos g4] at hr
              injection hr with h
              subst h
              subst g4
              exact ⟨['+'], rfl, le_refl _, by simp, fun _ => by simp,
                fun hh => Token.noConfusion hh, fun _ => by decide⟩
            · rw [if_neg g4] at hr
              by_cases g5 : c = '='
              · rw [if_pos g5] at hr
                injection hr with h
                subst h
                subst g5
                exact ⟨['='], rfl, le_refl _, by simp, fun _ => by simp,
                  fun hh => Token.noConfusion hh, fun _ => by decide⟩
              · rw [if_neg g5] at hr
                by_cases g6 : c = ']'
                · rw [if_pos g6] at hr
                  injection hr with h
                  subst h
                  subst g6
                  exact ⟨[']'], rfl, le_refl _, by simp, fun _ => by simp,
                    fun hh => Token.noConfusion hh, fun _ => by decide⟩
                · rw [if_neg g6] at hr
                  by_cases g7 : c = '\n'
                  · rw [if_pos g7] at hr
                    injection hr with h
                    subst h
                    subst g7
                    exact ⟨['\n'], rfl, Nat.le_succ ln, by simp [List.count_cons],
                      fun _ => by simp [List.count_cons],
                      fun hh => Token.noConfusion hh, fun _ => by decide⟩
                  · rw [if_neg g7] at hr
                    by_cases g8 : c = ' ' ∨ c = '\t'
                    · rw [if_pos g8] at hr
                      rcases ih fn sb rest ln r hr with
                        ⟨consumed, hcs, hle, hub, hex, hEOF, hprog⟩
                      have hcnl : ¬ c = '\n' := g7
                      have hcbs : ¬ c = '\\' := by
                        rcases g8 with hg | hg
                        · rw [hg]; decide
                        · rw [hg]; decide
                      have hcount : (c :: consumed).count '\n' = consumed.count '\n' := by
                        simp [List.count_cons, hcnl]
                      refine ⟨c :: consumed, by rw [hcs]; rfl, hle,
                        by rw [hcount]; omega, ?_, ?_, fun _ => by simp⟩
                      · intro hmem
                        have hmem' : '\\' ∉ consumed := fun hh =>
                          hmem (List.mem_cons_of_mem _ hh)
                        rw [hcount]
                        exact hex hmem'
                      · intro hh
                        rcases hEOF hh with ⟨k1, k2, k3⟩
                        exact ⟨k1, k2, k3⟩
                    · rw [if_neg g8] at hr
                      by_cases g9 : c = '/'
                      · rw [if_pos g9] at hr
                        cases rest with
                        | nil =>
                          dsimp only at hr
                          exact Except.noConfusion hr
                        | cons c2 rest2 =>
                          dsimp only at hr
                          by_cases hc2 : c2 = '/'
                          · rw [if_pos hc2] at hr
                            cases hca : commentA f rest2 with
                            | error e' =>
                              rw [hca] at hr
                              exact Except.noConfusion hr
                            | ok rest3 =>
                              rw [hca] at hr
                              dsimp only at hr
                              rcases commentA_facts f rest2 rest3 hca with
                                ⟨cc, hccs, hccount⟩
                              rcases ih fn sb rest3 ln r hr with
                                ⟨consumed, hcs, hle, hub, hex, hEOF, hprog⟩
                              have hbs : ('\\' : Char) ∉ cc → True := fun _ => trivial
                              have hccbs : ∀ x ∈ cc, x ≠ '\n' := by
                                intro x hx hxe
                                subst hxe
                                have := List.count_pos_iff.mpr hx
                                omega
                              refine ⟨c :: c2 :: (cc ++ consumed), ?_, hle, ?_, ?_, ?_, fun _ => by simp⟩
                              · rw [hccs] at *
                                rw [hcs]
                                simp
                              · have : (c :: c2 :: (cc ++ consumed)).count '\n' =
                                    consumed.count '\n' := by
                                  simp [List.count_cons, List.count_append, hccount, g7,
                                    show ¬ c2 = '\n' from by rw [hc2]; decide]
                                rw [this]
                                omega
                              · intro hmem
                                have hmem' : '\\' ∉ consumed := by
                                  intro hh
                                  exact hmem (by simp [hh])
                                have : (c :: c2 :: (cc ++ consumed)).count '\n' =
                                    consumed.count '\n' := by
                                  simp [List.count_cons, List.count_append, hccount, g7,
                                    show ¬ c2 = '\n' from by rw [hc2]; decide]
                                rw [this]
                                exact hex hmem'
                              · intro hh
                                rcases hEOF hh with ⟨k1, k2, k3⟩
                                exact ⟨k1, k2, k3⟩
                          · rw [if_neg hc2] at hr
                            exact Except.noConfusion hr
                      · rw [if_neg g9] at hr
                        by_cases g10 : c = '"'
                        · rw [if_pos g10] at hr
                          rcases stringA_facts f fn rest ln [] r hr with
                            ⟨consumed, hcs, hpos, hle, hub, hex, hkind⟩
                          have hcount : (c :: consumed).count '\n' = consumed.count '\n' := by
                            simp [List.count_cons, g7]
                          refine ⟨c :: consumed, by rw [hcs]; rfl, hle,
                            by rw [hcount]; omega, ?_,
                            fun hh => absurd (hkind ▸ hh) (by decide), fun _ => by simp⟩
                          intro hmem
                          have hmem' : '\\' ∉ consumed := fun hh =>
                            hmem (List.mem_cons_of_mem _ hh)
                          rw [hcount]
                          exact hex hmem'
                        · rw [if_neg g10] at hr
                          by_cases g11 : c = '['
                          · rw [if_pos g11] at hr
                            by_cases hbr : ¬ sb
                            · rw [if_pos hbr] at hr
                              injection hr with h
                              subst h
                              subst g11
                              exact ⟨['['], rfl, le_refl _, by simp, fun _ => by simp,
                                fun hh => Token.noConfusion hh, fun _ => by decide⟩
                            · rw [if_neg hbr] at hr
                              rcases flagA_facts f fn rest ln [] r hr with
                                ⟨consumed, hcs, hpos, hln', hcount, hkind⟩
                              have hcount' : (c :: consumed).count '\n' = 0 := by
                                simp [List.count_cons, hcount, g7]
                              refine ⟨c :: consumed, by rw [hcs]; rfl, by omega,
                                by rw [hcount']; omega, fun _ => by rw [hcount']; omega,
                                fun hh => absurd (hkind ▸ hh) (by decide), fun _ => by simp⟩
                          · rw [if_neg g11] at hr
                            by_cases g12 : c = '('
                            · rw [if_pos g12] at hr
                              rcases parenA_facts f fn rest ln [] r hr with
                                ⟨consumed, hcs, hpos, hln', hkind⟩
                              have hcount : (c :: consumed).count '\n' =
                                  consumed.count '\n' := by
                                simp [List.count_cons, g7]
                              refine ⟨c :: consumed, by rw [hcs]; rfl, by omega,
                                by rw [hcount]; omega, fun _ => by rw [hcount]; omega,
                                fun hh => absurd (hkind ▸ hh) (by decide), fun _ => by simp⟩
                            · rw [if_neg g12] at hr
                              by_cases g13 : BARE_DISALLOWED.contains c
                              · rw [if_neg (not_not_intro g13)] at hr
                                exact Except.noConfusion hr
                              · rw [if_pos g13] at hr
                                rcases bareA_facts f rest ln [c] r hr with
                                  ⟨consumed, hcs, hln', hcount, hkind⟩
                                have hcount' : (c :: consumed).count '\n' = 0 := by
                                  simp [List.count_cons, hcount, g7]
                                refine ⟨c :: consumed, by rw [hcs]; rfl, by omega,
                                  by rw [hcount']; omega, fun _ => by rw [hcount']; omega,
                                  fun hh => absurd (hkind ▸ hh) (by decide), fun _ => by simp⟩

/-- Consolidated behaviour of a successful `next_token` call on a
reachable state. -/
theorem Tokenizer.next_token_spec (t : Tokenizer) (h : t.Inv) (tok : Token)
    (v : Option String) (t' : Tokenizer)
    (hok : t.next_token = .ok ((tok, v), t')) :
    t'.Inv ∧ t'.filename = t.filename ∧ t'.string_bracket = t.string_bracket ∧
    ∃ consumed, t.stream = consumed ++ t'.stream ∧
      t.line_num ≤ t'.line_num ∧
      t'.line_num ≤ t.line_num + consumed.count '\n' ∧
      ('\\' ∉ consumed → t'.line_num = t.line_num + consumed.count '\n') ∧
      (tok = .EOF → t'.stream = [] ∧ v = none ∧ t'.line_num = t.line_num) ∧
      (tok ≠ .EOF → t'.stream.length < t.stream.length) := by
  rcases t.next_token_ok h (tok, v) t' hok with ⟨hA, hinv', hfn, hsb⟩
  rcases nextTokA_facts _ _ _ _ _ _ hA with ⟨consumed, hcs, hle, hub, hex, hEOF, hprog⟩
  refine ⟨hinv', hfn, hsb, consumed, hcs, hle, hub, hex, ?_, ?_⟩
  · intro he
    rcases hEOF he with ⟨k1, k2, k3⟩
    exact ⟨k1, k2, k3⟩
  · intro hne
    have hp := hprog hne
    have hred : (((tok, v), t'.stream, t'.line_num) :
        TokValue × List Char × Nat).2.1 = t'.stream := rfl
    rw [hcs, hred, List.length_append]
    omega

/-- On an exhausted stream, `next_token` returns EOF and only advances the
cursor: stream, line number and filename are all unchanged. -/
theorem Tokenizer.next_token_empty (t : Tokenizer) (h : t.Inv)
    (hs : t.stream = []) :
    ∃ t', t.next_token = .ok ((.EOF, none), t') ∧ t'.stream = [] ∧ t'.Inv ∧
      t'.line_num = t.line_num ∧ t'.filename = t.filename ∧
      t'.string_bracket = t.string_bracket := by
  rcases t.next_token_sim h with ⟨he, hk⟩
  have hA : nextTokA t.filename t.string_bracket (t.stream.length + 2) t.stream
      t.line_num = .ok ((.EOF, none), [], t.line_num) := by
    rw [hs]
    rfl
  rcases hk _ hA with ⟨t', k1, k2, k3, k4, k5, k6⟩
  exact ⟨t', k1, k2, k4, k3, k5, k6⟩

/-- Claim C7: EOF is a stable terminal state.  Once `next_token` has
returned EOF, its value was `None` and every number of further
`next_token` calls keeps returning EOF while leaving `line_num` and
`filename` unchanged. -/
theorem claim_C7 (t : Tokenizer) (v : Option String) (t1 : Tokenizer)
    (h : t.Inv) (hok : t.next_token = .ok ((.EOF, v), t1)) :
    v = none ∧ ∀ n : Nat, ∃ t2, t1.nextN n = .ok ((.EOF, none), t2) ∧
      t2.line_num = t1.line_num ∧ t2.filename = t1.filename := by
  rcases t.next_token_spec h .EOF v t1 hok with ⟨hinv1, -, -, -, -, -, -, -, hEOF, -⟩
  rcases hEOF rfl with ⟨hstream1, hv, -⟩
  refine ⟨hv, ?_⟩
  have key : ∀ (n : Nat) (u : Tokenizer), u.Inv → u.stream = [] →
      ∃ t2, u.nextN n = .ok ((.EOF, none), t2) ∧
        t2.line_num = u.line_num ∧ t2.filename = u.filename := by
    intro n
    induction n with
    | zero =>
      intro u hu hsu
      rcases u.next_token_empty hu hsu with ⟨t2, k1, _, _, k4, k5, _⟩
      exact ⟨t2, k1, k4, k5⟩
    | succ n ih =>
      intro u hu hsu
      rcases u.next_token_empty hu hsu with ⟨t2, k1, k2, k3, k4, k5, _⟩
      rcases ih t2 k3 k2 with ⟨t3, m1, m2, m3⟩
      refine ⟨t3, ?_, by rw [m2, k4], by rw [m3, k5]⟩
      show (match u.next_token with
        | Except.error e => Except.error e
        | Except.ok (_, t') => t'.nextN n) = _
      rw [k1]
      exact m1
  intro n
  exact key n t1 hinv1 hstream1

/-- Witness for C7: after tokenizing `foo` to EOF, ten further calls still
return EOF with unchanged line number and filename. -/
theorem claim_C7_witness :
    (none : Option String) = none ∧
    ∀ n : Nat, ∃ t2,
      Tokenizer.nextN n
        { cur_chunk := ['x'], chunk_iter := [], char_index := 2,
          filename := "", line_num := 1, string_bracket := false } =
        .ok ((Token.EOF, none), t2) ∧
      t2.line_num = Tokenizer.line_num
        { cur_chunk := ['x'], chunk_iter := [], char_index := 2,
          filename := "", line_num := 1, string_bracket := false } ∧
      t2.filename = Tokenizer.filename
        { cur_chunk := ['x'], chunk_iter := [], char_index := 2,
          filename := "", line_num := 1, string_bracket := false } :=
  claim_C7
    { cur_chunk := ['x'], chunk_iter := [], char_index := 1,
      filename := "", line_num := 1, string_bracket := false }
    none
    { cur_chunk := ['x'], chunk_iter := [], char_index := 2,
      filename := "", line_num := 1, string_bracket := false }
    (by decide) rfl

/-- Counterexample to C2 as stated: the input `"a\<newline>b"` (a quoted
string whose backslash is followed by a real newline) is tokenized to EOF
-- so its single `'\n'` character is consumed from the character source --
yet the final line number is 1, not 1 + 1: the escape line-continuation
consumes a newline without incrementing the counter. -/
theorem claim_C2_counterexample :
    (Tokenizer.fromString "\"a\\\nb\"" "" false).tokenize =
      .ok ([(Token.STRING, some "ab"), (Token.EOF, none)], 1) ∧
    ("\"a\\\nb\"".data.count '\n' = 1) ∧ (1 : Nat) ≠ 1 + 1 :=
  ⟨rfl, by decide, by decide⟩

/-- Claim C2 (amended): across one successful `next_token` call the line
counter never decreases, grows by at most the number of `'\n'` characters
consumed from the character source, and grows by exactly that number
whenever no backslash is consumed; the exception forced by the
counterexample is the backslash-newline line continuation inside quoted
strings, which consumes a real newline without counting it.  Synthetic
newlines decoded from the two-character escape never advance the counter,
since the count ranges over consumed source characters only. -/
theorem claim_C2 (t : Tokenizer) (h : t.Inv) (tv : TokValue) (t' : Tokenizer)
    (hok : t.next_token = .ok (tv, t')) :
    ∃ consumed, t.stream = consumed ++ t'.stream ∧
      t.line_num ≤ t'.line_num ∧
      t'.line_num ≤ t.line_num + consumed.count '\n' ∧
      ('\\' ∉ consumed → t'.line_num = t.line_num + consumed.count '\n') := by
  obtain ⟨tok, v⟩ := tv
  rcases t.next_token_spec h tok v t' hok with ⟨-, -, -, consumed, hcs, hle, hub, hex, -, -⟩
  exact ⟨consumed, hcs, hle, hub, hex⟩

/-- Witness for the amended C2 at the input `x`. -/
theorem claim_C2_witness :
    ∃ consumed, (Tokenizer.fromString "x" "" false).stream =
        consumed ++ Tokenizer.stream
          { cur_chunk := ['x'], chunk_iter := [], char_index := 1,
            filename := "", line_num := 1, string_bracket := false } ∧
      (Tokenizer.fromString "x" "" false).line_num ≤ Tokenizer.line_num
          { cur_chunk := ['x'], chunk_iter := [], char_index := 1,
            filename := "", line_num := 1, string_bracket := false } ∧
      Tokenizer.line_num
          { cur_chunk := ['x'], chunk_iter := [], char_index := 1,
            filename := "", line_num := 1, string_bracket := false } ≤
        (Tokenizer.fromString "x" "" false).line_num + consumed.count '\n' ∧
      ('\\' ∉ consumed → Tokenizer.line_num
          { cur_chunk := ['x'], chunk_iter := [], char_index := 1,
            filename := "", line_num := 1, string_bracket := false } =
        (Tokenizer.fromString "x" "" false).line_num + consumed.count '\n') :=
  claim_C2 (Tokenizer.fromString "x" "" false) (by decide)
    (Token.STRING, some "x")
    { cur_chunk := ['x'], chunk_iter := [], char_index := 1,
      filename := "", line_num := 1, string_bracket := false } rfl

/-!
## Evaluation lemmas for the stream machine on specific heads
-/

/-- A leading `]` always yields BRACK_CLOSE, independent of the mode. -/
theorem nextTokA_brack_close (fn : String) (sb : Bool) (f : Nat)
    (rest : List Char) (ln : Nat) :
    nextTokA fn sb (f + 1) (']' :: rest) ln =
      .ok ((.BRACK_CLOSE, some "]"), rest, ln) := by
  rw [nextTokA_step, if_neg (by decide), if_neg (by decide), if_neg (by decide),
    if_neg (by decide), if_neg (by decide), if_pos rfl]

/-- A leading `=` yields EQUALS. -/
theorem nextTokA_equals (fn : String) (sb : Bool) (f : Nat)
    (rest : List Char) (ln : Nat) :
    nextTokA fn sb (f + 1) ('=' :: rest) ln =
      .ok ((.EQUALS, some "="), rest, ln) := by
  rw [nextTokA_step, if_neg (by decide), if_neg (by decide), if_neg (by decide),
    if_neg (by decide), if_pos rfl]

/-- A leading `+` yields PLUS. -/
theorem nextTokA_plus (fn : String) (sb : Bool) (f : Nat)
    (rest : List Char) (ln : Nat) :
    nextTokA fn sb (f + 1) ('+' :: rest) ln =
      .ok ((.PLUS, some "+"), rest, ln) := by
  rw [nextTokA_step, if_neg (by decide), if_neg (by decide), if_neg (by decide),
    if_pos rfl]

/-- A leading newline yields NEWLINE and counts the line. -/
theorem nextTokA_newline (fn : String) (sb : Bool) (f : Nat)
    (rest : List Char) (ln : Nat) :
    nextTokA fn sb (f + 1) ('\n' :: rest) ln =
      .ok ((.NEWLINE, some "\n"), rest, ln + 1) := by
  rw [nextTokA_step, if_neg (by decide), if_neg (by decide), if_neg (by decide),
    if_neg (by decide), if_neg (by decide), if_neg (by decide), if_pos rfl]

/-- A `/` whose follower is not another `/` is the single-slash error. -/
theorem nextTokA_slash_err (fn : String) (sb : Bool) (f : Nat) (c : Char)
    (rest : List Char) (ln : Nat) (hc : ¬ c = '/') :
    nextTokA fn sb (f + 1) ('/' :: c :: rest) ln =
      .error (.tse "Single slash found!" fn ln) := by
  rw [nextTokA_step, if_neg (by decide), if_neg (by decide), if_neg (by decide),
    if_neg (by decide), if_neg (by decide), if_neg (by decide), if_neg (by decide),
    if_neg (by decide), if_pos rfl]
  dsimp only
  rw [if_neg hc]

/-- A `/` at the very end of the input is also the single-slash error. -/
theorem nextTokA_slash_eof (fn : String) (sb : Bool) (f : Nat) (ln : Nat) :
    nextTokA fn sb (f + 1) ['/'] ln =
      .error (.tse "Single slash found!" fn ln) := by
  rw [nextTokA_step, if_neg (by decide), if_neg (by decide), if_neg (by decide),
    if_neg (by decide), if_neg (by decide), if_neg (by decide), if_neg (by decide),
    if_neg (by decide), if_pos rfl]

/-- The comment loop stops at the first newline, leaving it unconsumed. -/
theorem commentA_eval : ∀ (f : Nat) (body rest : List Char), '\n' ∉ body →
    body.length + 1 ≤ f →
    commentA f (body ++ '\n' :: rest) = .ok ('\n' :: rest) := by
  intro f
  induction f with
  | zero =>
    intro body rest _ hf
    omega
  | succ f ih =>
    intro body rest hb hf
    cases body with
    | nil =>
      show commentA (f + 1) ('\n' :: rest) = _
      rw [commentA, if_pos rfl]
    | cons c body' =>
      have hc : ¬ c = '\n' := fun hh => hb (by rw [hh]; exact List.mem_cons_self _ _)
      show commentA (f + 1) (c :: (body' ++ '\n' :: rest)) = _
      rw [commentA, if_neg hc]
      exact ih body' rest (fun hh => hb (List.mem_cons_of_mem _ hh)) (by simp at hf ⊢; omega)

/-- The comment loop at end of input consumes everything. -/
theorem commentA_eval_eof : ∀ (f : Nat) (body : List Char), '\n' ∉ body →
    body.length + 1 ≤ f → commentA f body = .ok [] := by
  intro f
  induction f with
  | zero =>
    intro body _ hf
    omega
  | succ f ih =>
    intro body hb hf
    cases body with
    | nil => rfl
    | cons c body' =>
      have hc : ¬ c = '\n' := fun hh => hb (by rw [hh]; exact List.mem_cons_self _ _)
      rw [commentA, if_neg hc]
      exact ih body' (fun hh => hb (List.mem_cons_of_mem _ hh)) (by simp at hf ⊢; omega)

/-- A `//` comment terminated by a newline: the newline is pushed back and
re-tokenized, so the call produces the NEWLINE token after the comment. -/
theorem nextTokA_comment_nl (fn : String) (sb : Bool) (f : Nat)
    (body rest : List Char) (ln : Nat) (hb : '\n' ∉ body)
    (hf : body.length + 2 ≤ f) :
    nextTokA fn sb (f + 1) ('/' :: '/' :: (body ++ '\n' :: rest)) ln =
      .ok ((.NEWLINE, some "\n"), rest, ln + 1) := by
  rw [nextTokA_step, if_neg (by decide), if_neg (by decide), if_neg (by decide),
    if_neg (by decide), if_neg (by decide), if_neg (by decide), if_neg (by decide),
    if_neg (by decide), if_pos rfl]
  dsimp only
  rw [if_pos rfl, commentA_eval f body rest hb (by omega)]
  obtain ⟨f', rfl⟩ : ∃ f', f = f' + 1 := ⟨f - 1, by omega⟩
  exact nextTokA_newline fn sb f' rest ln

/-- A `//` comment running to end of input: the next token is EOF. -/
theorem nextTokA_comment_eof (fn : String) (sb : Bool) (f : Nat)
    (body : List Char) (ln : Nat) (hb : '\n' ∉ body)
    (hf : body.length + 2 ≤ f) :
    nextTokA fn sb (f + 1) ('/' :: '/' :: body) ln =
      .ok ((.EOF, none), [], ln) := by
  rw [nextTokA_step, if_neg (by decide), if_neg (by decide), if_neg (by decide),
    if_neg (by decide), if_neg (by decide), if_neg (by decide), if_neg (by decide),
    if_neg (by decide), if_pos rfl]
  dsimp only
  rw [if_pos rfl, commentA_eval_eof f body hb (by omega)]
  obtain ⟨f', rfl⟩ : ∃ f', f = f' + 1 := ⟨f - 1, by omega⟩
  exact nextTokA_nil fn sb f' ln

/-- Claim C8: comments.  A `/` must be followed by another `/` or the
single-slash error (with filename and current line) is raised -- also when
the `/` ends the input; a valid `//` comment consumes up to the newline or
the end of input without producing a token, pushing the terminator back:
after a newline-terminated comment the next token is that NEWLINE, after
an input-final comment it is EOF; and `// a comment\nfoo` tokenizes to
exactly NEWLINE `\n`, STRING `foo`, EOF. -/
theorem claim_C8 :
    (∀ (t : Tokenizer) (c : Char) (rest : List Char), t.Inv →
      t.stream = '/' :: c :: rest → ¬ c = '/' →
      t.next_token = .error (.tse "Single slash found!" t.filename t.line_num)) ∧
    (∀ t : Tokenizer, t.Inv → t.stream = ['/'] →
      t.next_token = .error (.tse "Single slash found!" t.filename t.line_num)) ∧
    (∀ (t : Tokenizer) (body rest : List Char), t.Inv →
      t.stream = '/' :: '/' :: (body ++ '\n' :: rest) → '\n' ∉ body →
      ∃ t', t.next_token = .ok ((Token.NEWLINE, some "\n"), t') ∧
        t'.stream = rest ∧ t'.line_num = t.line_num + 1) ∧
    (∀ (t : Tokenizer) (body : List Char), t.Inv →
      t.stream = '/' :: '/' :: body → '\n' ∉ body →
      ∃ t', t.next_token = .ok ((Token.EOF, none), t') ∧
        t'.stream = [] ∧ t'.line_num = t.line_num) ∧
    (Tokenizer.fromString "// a comment\nfoo" "" false).tokenize =
      .ok ([(Token.NEWLINE, some "\n"), (Token.STRING, some "foo"),
        (Token.EOF, none)], 2) := by
  refine ⟨?_, ?_, ?_, ?_, rfl⟩
  · intro t c rest h hs hc
    rcases t.next_token_sim h with ⟨he, -⟩
    apply he
    rw [hs]
    have hlen : ('/' :: c :: rest).length + 2 = (('/' :: c :: rest).length + 1) + 1 := rfl
    rw [hlen]
    exact nextTokA_slash_err _ _ _ c rest _ hc
  · intro t h hs
    rcases t.next_token_sim h with ⟨he, -⟩
    apply he
    rw [hs]
    exact nextTokA_slash_eof _ _ _ _
  · intro t body rest h hs hb
    rcases t.next_token_sim h with ⟨-, hk⟩
    have hA : nextTokA t.filename t.string_bracket (t.stream.length + 2) t.stream
        t.line_num = .ok ((.NEWLINE, some "\n"), rest, t.line_num + 1) := by
      rw [hs]
      have hlen : ('/' :: '/' :: (body ++ '\n' :: rest)).length + 2 =
          (('/' :: '/' :: (body ++ '\n' :: rest)).length + 1) + 1 := rfl
      rw [hlen]
      apply nextTokA_comment_nl _ _ _ _ _ _ hb
      simp
      omega
    rcases hk _ hA with ⟨t', k1, k2, k3, -, -, -⟩
    exact ⟨t', k1, k2, k3⟩
  · intro t body h hs hb
    rcases t.next_token_sim h with ⟨-, hk⟩
    have hA : nextTokA t.filename t.string_bracket (t.stream.length + 2) t.stream
        t.line_num = .ok ((.EOF, none), [], t.line_num) := by
      rw [hs]
      have hlen : ('/' :: '/' :: body).length + 2 =
          (('/' :: '/' :: body).length + 1) + 1 := rfl
      rw [hlen]
      apply nextTokA_comment_eof _ _ _ _ _ hb
      simp
    rcases hk _ hA with ⟨t', k1, k2, k3, -, -, -⟩
    exact ⟨t', k1, k2, k3⟩

/-- Witness for C8: a lone slash errors, and a comment followed by a
newline produces the NEWLINE token next. -/
theorem claim_C8_witness :
    (Tokenizer.fromString "/x" "fn" false).next_token =
      .error (.tse "Single slash found!" "fn" 1) ∧
    ∃ t', (Tokenizer.fromString "//ab\nfoo" "" false).next_token =
        .ok ((Token.NEWLINE, some "\n"), t') ∧
      t'.stream = "foo".data ∧ t'.line_num = 1 + 1 :=
  ⟨claim_C8.1 (Tokenizer.fromString "/x" "fn" false) 'x' [] (by decide)
      (by decide) (by decide),
    claim_C8.2.2.1 (Tokenizer.fromString "//ab\nfoo" "" false) ['a', 'b']
      "foo".data (by decide) (by decide) (by decide)⟩

/-- Claim C9: bracket handling.  With `string_bracket` true, `[!fizz]`
yields PROP_FLAG `!fizz` then EOF; with the flag false the same input
yields BRACK_OPEN, STRING `!fizz`, BRACK_CLOSE, EOF; and a `]` at the
start of a token is always BRACK_CLOSE, whatever the mode flag of the
tokenizer state. -/
theorem claim_C9 :
    ((Tokenizer.fromString "[!fizz]" "" true).tokenize =
      .ok ([(Token.PROP_FLAG, some "!fizz"), (Token.EOF, none)], 1)) ∧
    ((Tokenizer.fromString "[!fizz]" "" false).tokenize =
      .ok ([(Token.BRACK_OPEN, some "["), (Token.STRING, some "!fizz"),
        (Token.BRACK_CLOSE, some "]"), (Token.EOF, none)], 1)) ∧
    (∀ (t : Tokenizer) (rest : List Char), t.Inv → t.stream = ']' :: rest →
      ∃ t', t.next_token = .ok ((Token.BRACK_CLOSE, some "]"), t') ∧
        t'.stream = rest ∧ t'.line_num = t.line_num) := by
  refine ⟨rfl, rfl, ?_⟩
  intro t rest h hs
  rcases t.next_token_sim h with ⟨-, hk⟩
  have hA : nextTokA t.filename t.string_bracket (t.stream.length + 2) t.stream
      t.line_num = .ok ((.BRACK_CLOSE, some "]"), rest, t.line_num) := by
    rw [hs]
    have hlen : (']' :: rest).length + 2 = ((']' :: rest).length + 1) + 1 := rfl
    rw [hlen]
    exact nextTokA_brack_close _ _ _ rest _
  rcases hk _ hA with ⟨t', k1, k2, k3, -, -, -⟩
  exact ⟨t', k1, k2, k3⟩

/-- Witness for C9: `]` leads with BRACK_CLOSE even in bracket-as-flag
mode. -/
theorem claim_C9_witness :
    ∃ t', (Tokenizer.fromString "]x" "" true).next_token =
        .ok ((Token.BRACK_CLOSE, some "]"), t') ∧
      t'.stream = ['x'] ∧ t'.line_num = 1 :=
  claim_C9.2.2 (Tokenizer.fromString "]x" "" true) ['x'] (by decide) (by decide)

/-- The bare-word loop gathers exactly the maximal run of allowed
characters and leaves the first disallowed character in the stream. -/
theorem bareA_eval : ∀ (f : Nat) (cs : List Char) (ln : Nat) (acc : List Char),
    cs.length + 1 ≤ f →
    bareA f cs ln acc = .ok ((.STRING, some (String.mk
      (acc ++ cs.takeWhile (fun ch => !(BARE_DISALLOWED.contains ch))))),
      cs.dropWhile (fun ch => !(BARE_DISALLOWED.contains ch)), ln) := by
  intro f
  induction f with
  | zero =>
    intro cs ln acc hf
    omega
  | succ f ih =>
    intro cs ln acc hf
    cases cs with
    | nil =>
      rw [bareA_nil]
      simp
    | cons c rest =>
      rw [bareA_step]
      by_cases h1 : BARE_DISALLOWED.contains c
      · rw [if_pos h1]
        have hmem : c ∈ BARE_DISALLOWED := List.mem_of_elem_eq_true h1
        rw [List.takeWhile_cons, List.dropWhile_cons]
        simp [hmem]
      · rw [if_neg h1]
        rw [ih rest ln (acc ++ [c]) (by simp at hf ⊢; omega)]
        have hmem : c ∉ BARE_DISALLOWED := fun hh => h1 (List.elem_eq_true_of_mem hh)
        rw [List.takeWhile_cons, List.dropWhile_cons]
        simp [hmem]

/-- Dispatch of a bare-word start: a character that is neither disallowed
nor one of the operator characters `+`, `=`, `/` enters the bare-name
loop. -/
theorem nextTokA_bare (fn : String) (sb : Bool) (f : Nat) (c : Char)
    (rest : List Char) (ln : Nat) (h1 : ¬ BARE_DISALLOWED.contains c = true)
    (h2 : ¬ c = '+') (h3 : ¬ c = '=') (h4 : ¬ c = '/') :
    nextTokA fn sb (f + 1) (c :: rest) ln = bareA f rest ln [c] := by
  have n1 : ¬ c = '{' := fun hh => h1 (by rw [hh]; decide)
  have n2 : ¬ c = '}' := fun hh => h1 (by rw [hh]; decide)
  have n3 : ¬ c = ':' := fun hh => h1 (by rw [hh]; decide)
  have n6 : ¬ c = ']' := fun hh => h1 (by rw [hh]; decide)
  have n7 : ¬ c = '\n' := fun hh => h1 (by rw [hh]; decide)
  have n8 : ¬ (c = ' ' ∨ c = '\t') := by
    rintro (hh | hh)
    · exact h1 (by rw [hh]; decide)
    · exact h1 (by rw [hh]; decide)
  have n10 : ¬ c = '"' := fun hh => h1 (by rw [hh]; decide)
  have n11 : ¬ c = '[' := fun hh => h1 (by rw [hh]; decide)
  have n12 : ¬ c = '(' := fun hh => h1 (by rw [hh]; decide)
  rw [nextTokA_step, if_neg n1, if_neg n2, if_neg n3, if_neg h2, if_neg h3,
    if_neg n6, if_neg n7, if_neg n8, if_neg h4, if_neg n10, if_neg n11,
    if_neg n12, if_pos h1]

/-- Claim C10: `=` and `+` do not terminate a bare word.  Once a bare word
has begun, the accumulated STRING value is the maximal run of characters
outside `BARE_DISALLOWED` (so `=`, `+` and anything else outside the set
`" ' { } < > ( ) ; : [ ] \n \t space"` are absorbed, and the word ends only
at such a character or at end of input); an `=` or `+` at the start of a
token yields the EQUALS or PLUS token; and `a=b` tokenizes to the single
STRING `a=b`. -/
theorem claim_C10 :
    (∀ (t : Tokenizer) (c : Char) (rest : List Char), t.Inv →
      t.stream = c :: rest → ¬ BARE_DISALLOWED.contains c = true →
      ¬ c = '+' → ¬ c = '=' → ¬ c = '/' →
      ∃ t', t.next_token = .ok ((Token.STRING, some (String.mk
          (c :: rest.takeWhile (fun ch => !(BARE_DISALLOWED.contains ch))))), t') ∧
        t'.stream = rest.dropWhile (fun ch => !(BARE_DISALLOWED.contains ch)) ∧
        t'.line_num = t.line_num) ∧
    (∀ (t : Tokenizer) (rest : List Char), t.Inv → t.stream = '=' :: rest →
      ∃ t', t.next_token = .ok ((Token.EQUALS, some "="), t') ∧ t'.stream = rest) ∧
    (∀ (t : Tokenizer) (rest : List Char), t.Inv → t.stream = '+' :: rest →
      ∃ t', t.next_token = .ok ((Token.PLUS, some "+"), t') ∧ t'.stream = rest) ∧
    ((Tokenizer.fromString "a=b" "" false).tokenize =
      .ok ([(Token.STRING, some "a=b"), (Token.EOF, none)], 1)) := by
  refine ⟨?_, ?_, ?_, rfl⟩
  · intro t c rest h hs h1 h2 h3 h4
    rcases t.next_token_sim h with ⟨-, hk⟩
    have hA : nextTokA t.filename t.string_bracket (t.stream.length + 2) t.stream
        t.line_num = .ok ((.STRING, some (String.mk
          (c :: rest.takeWhile (fun ch => !(BARE_DISALLOWED.contains ch))))),
          rest.dropWhile (fun ch => !(BARE_DISALLOWED.contains ch)), t.line_num) := by
      rw [hs]
      have hlen : (c :: rest).length + 2 = ((c :: rest).length + 1) + 1 := rfl
      rw [hlen, nextTokA_bare _ _ _ c rest _ h1 h2 h3 h4,
        bareA_eval _ rest _ [c] (by simp)]
      rfl
    rcases hk _ hA with ⟨t', k1, k2, k3, -, -, -⟩
    exact ⟨t', k1, k2, k3⟩
  · intro t rest h hs
    rcases t.next_token_sim h with ⟨-, hk⟩
    have hA : nextTokA t.filename t.string_bracket (t.stream.length + 2) t.stream
        t.line_num = .ok ((.EQUALS, some "="), rest, t.line_num) := by
      rw [hs]
      have hlen : ('=' :: rest).length + 2 = (('=' :: rest).length + 1) + 1 := rfl
      rw [hlen]
      exact nextTokA_equals _ _ _ rest _
    rcases hk _ hA with ⟨t', k1, k2, -, -, -, -⟩
    exact ⟨t', k1, k2⟩
  · intro t rest h hs
    rcases t.next_token_sim h with ⟨-, hk⟩
    have hA : nextTokA t.filename t.string_bracket (t.stream.length + 2) t.stream
        t.line_num = .ok ((.PLUS, some "+"), rest, t.line_num) := by
      rw [hs]
      have hlen : ('+' :: rest).length + 2 = (('+' :: rest).length + 1) + 1 := rfl
      rw [hlen]
      exact nextTokA_plus _ _ _ rest _
    rcases hk _ hA with ⟨t', k1, k2, -, -, -, -⟩
    exact ⟨t', k1, k2⟩

/-- Witness for C10: the bare word starting at `a` in `a=b` absorbs the
`=`, and a leading `=` yields EQUALS. -/
theorem claim_C10_witness :
    (∃ t', (Tokenizer.fromString "a=b" "" false).next_token =
        .ok ((Token.STRING, some (String.mk
          ('a' :: "=b".data.takeWhile (fun ch => !(BARE_DISALLOWED.contains ch))))), t') ∧
      t'.stream = "=b".data.dropWhile (fun ch => !(BARE_DISALLOWED.contains ch)) ∧
      t'.line_num = 1) ∧
    (∃ t', (Tokenizer.fromString "=b" "" false).next_token =
        .ok ((Token.EQUALS, some "="), t') ∧ t'.stream = ['b']) :=
  ⟨claim_C10.1 (Tokenizer.fromString "a=b" "" false) 'a' "=b".data (by decide)
      (by decide) (by decide) (by decide) (by decide) (by decide),
    claim_C10.2.1 (Tokenizer.fromString "=b" "" false) ['b'] (by decide) (by decide)⟩

/-!
## The escape-decoding specification of quoted strings (claim C3)
-/

/-- Pure decoding specification of a quoted-string body, written from the
claim's wording: given the characters following the opening quote, return
the decoded value, the stream left after the closing quote and the number
of line increments.  `\n` decodes to a literal newline, `\t` to a literal
tab, a backslash followed by an actual newline is consumed and discarded
(nothing appended, no line increment), `\"`, `\\`, `\/` decode to the
literal character, any other escape keeps both characters verbatim; a raw
newline is kept and counts one line; the closing quote ends the string.
The fuel argument only bounds the recursion; every step consumes at least
one character, so the wrapper's `length + 1` never runs out. -/
def decodeQuotedF : Nat → List Char → Option (List Char × List Char × Nat)
  | 0, _ => none
  | _ + 1, [] => none
  | g + 1, c :: rest =>
    if c = '"' then some ([], rest, 0)
    else if c = '\n' then
      match decodeQuotedF g rest with
      | none => none
      | some (val, r, k) => some ('\n' :: val, r, k + 1)
    else if c = '\\' then
      match rest with
      | [] => none
      | e :: rest' =>
        if e = 'n' then
          match decodeQuotedF g rest' with
          | none => none
          | some (val, r, k) => some ('\n' :: val, r, k)
        else if e = 't' then
          match decodeQuotedF g rest' with
          | none => none
          | some (val, r, k) => some ('\t' :: val, r, k)
        else if e = '\n' then decodeQuotedF g rest'
        else if e = '"' ∨ e = '\\' ∨ e = '/' then
          match decodeQuotedF g rest' with
          | none => none
          | some (val, r, k) => some (e :: val, r, k)
        else
          match decodeQuotedF g rest' with
          | none => none
          | some (val, r, k) => some ('\\' :: e :: val, r, k)
    else
      match decodeQuotedF g rest with
      | none => none
      | some (val, r, k) => some (c :: val, r, k)

/-- The decoding specification of a quoted-string body (see
`decodeQuotedF`). -/
def decodeQuoted (cs : List Char) : Option (List Char × List Char × Nat) :=
  decodeQuotedF (cs.length + 1) cs

/-- One-step unfolding of `decodeQuotedF` on a non-empty body. -/
theorem decodeQuotedF_step (g : Nat) (c : Char) (rest : List Char) :
    decodeQuotedF (g + 1) (c :: rest) =
      (if c = '"' then some ([], rest, 0)
      else if c = '\n' then
        match decodeQuotedF g rest with
        | none => none
        | some (val, r, k) => some ('\n' :: val, r, k + 1)
      else if c = '\\' then
        match rest with
        | [] => none
        | e :: rest' =>
          if e = 'n' then
            match decodeQuotedF g rest' with
            | none => none
            | some (val, r, k) => some ('\n' :: val, r, k)
          else if e = 't' then
            match decodeQuotedF g rest' with
            | none => none
            | some (val, r, k) => some ('\t' :: val, r, k)
          else if e = '\n' then decodeQuotedF g rest'
          else if e = '"' ∨ e = '\\' ∨ e = '/' then
            match decodeQuotedF g rest' with
            | none => none
            | some (val, r, k) => some (e :: val, r, k)
          else
            match decodeQuotedF g rest' with
            | none => none
            | some (val, r, k) => some ('\\' :: e :: val, r, k)
      else
        match decodeQuotedF g rest with
        | none => none
        | some (val, r, k) => some (c :: val, r, k)) := rfl

/-- The quoted-string scanner refines the decoding specification: on a
body the specification decodes, `stringA` returns the STRING token
carrying the decoded value, leaves the specified residual stream, and
advances the line counter by the specified count. -/
theorem stringA_decode : ∀ (g f : Nat) (cs : List Char) (fn : String) (ln : Nat)
    (acc val rest : List Char) (k : Nat),
    decodeQuotedF g cs = some (val, rest, k) → cs.length + 1 ≤ f →
    stringA fn f cs ln acc =
      .ok ((.STRING, some (String.mk (acc ++ val))), rest, ln + k) := by
  intro g
  induction g with
  | zero =>
    intro f cs fn ln acc val rest k hd _
    exact Option.noConfusion hd
  | succ g ih =>
    intro f cs fn ln acc val rest k hd hf
    cases cs with
    | nil => exact Option.noConfusion hd
    | cons c body =>
      obtain ⟨f', rfl⟩ : ∃ f', f = f' + 1 := ⟨f - 1, by omega⟩
      rw [decodeQuotedF_step] at hd
      rw [stringA_step]
      by_cases h1 : c = '"'
      · rw [if_pos h1] at hd ⊢
        injection hd with hd'
        simp only [Prod.mk.injEq] at hd'
        obtain ⟨hv, hr, hk⟩ := hd'
        subst hv
        subst hr
        subst hk
        simp
      · rw [if_neg h1] at hd ⊢
        by_cases h2 : c = '\n'
        · rw [if_pos h2] at hd ⊢
          cases hdr : decodeQuotedF g body with
          | none => rw [hdr] at hd; exact Option.noConfusion hd
          | some vrk =>
            obtain ⟨val0, r0, k0⟩ := vrk
            rw [hdr] at hd
            dsimp only at hd
            injection hd with hd'
            simp only [Prod.mk.injEq] at hd'
            obtain ⟨hv, hr, hk⟩ := hd'
            subst hv
            subst hr
            subst hk
            rw [ih f' body fn (ln + 1) (acc ++ ['\n']) val0 r0 k0 hdr
              (by simp at hf ⊢; omega)]
            have e1 : acc ++ ['\n'] ++ val0 = acc ++ '\n' :: val0 := by simp
            have e2 : ln + 1 + k0 = ln + (k0 + 1) := by omega
            rw [e1, e2]
        · rw [if_neg h2] at hd ⊢
          by_cases h3 : c = '\\'
          · rw [if_pos h3] at hd ⊢
            cases body with
            | nil => exact Option.noConfusion hd
            | cons e2 body' =>
              dsimp only at hd ⊢
              by_cases q1 : e2 = 'n'
              · rw [if_pos q1] at hd ⊢
                cases hdr : decodeQuotedF g body' with
                | none => rw [hdr] at hd; exact Option.noConfusion hd
                | some vrk =>
                  obtain ⟨val0, r0, k0⟩ := vrk
                  rw [hdr] at hd
                  dsimp only at hd
                  injection hd with hd'
                  simp only [Prod.mk.injEq] at hd'
                  obtain ⟨hv, hr, hk⟩ := hd'
                  subst hv
                  subst hr
                  subst hk
                  rw [ih f' body' fn ln (acc ++ ['\n']) val0 r0 k0 hdr
                    (by simp at hf ⊢; omega)]
                  have e1 : acc ++ ['\n'] ++ val0 = acc ++ '\n' :: val0 := by simp
                  rw [e1]
              · rw [if_neg q1] at hd ⊢
                by_cases q2 : e2 = 't'
                · rw [if_pos q2] at hd ⊢
                  cases hdr : decodeQuotedF g body' with
                  | none => rw [hdr] at hd; exact Option.noConfusion hd
                  | some vrk =>
                    obtain ⟨val0, r0, k0⟩ := vrk
                    rw [hdr] at hd
                    dsimp only at hd
                    injection hd with hd'
                    simp only [Prod.mk.injEq] at hd'
                    obtain ⟨hv, hr, hk⟩ := hd'
                    subst hv
                    subst hr
                    subst hk
                    rw [ih f' body' fn ln (acc ++ ['\t']) val0 r0 k0 hdr
                      (by simp at hf ⊢; omega)]
                    have e1 : acc ++ ['\t'] ++ val0 = acc ++ '\t' :: val0 := by simp
                    rw [e1]
                · rw [if_neg q2] at hd ⊢
                  by_cases q3 : e2 = '\n'
                  · rw [if_pos q3] at hd ⊢
                    exact ih f' body' fn ln acc val rest k hd (by simp at hf ⊢; omega)
                  · rw [if_neg q3] at hd ⊢
                    by_cases q4 : e2 = '"' ∨ e2 = '\\' ∨ e2 = '/'
                    · rw [if_pos q4] at hd ⊢
                      cases hdr : decodeQuotedF g body' with
                      | none => rw [hdr] at hd; exact Option.noConfusion hd
                      | some vrk =>
                        obtain ⟨val0, r0, k0⟩ := vrk
                        rw [hdr] at hd
                        dsimp only at hd
                        injection hd with hd'
                        simp only [Prod.mk.injEq] at hd'
                        obtain ⟨hv, hr, hk⟩ := hd'
                        subst hv
                        subst hr
                        subst hk
                        rw [ih f' body' fn ln (acc ++ [e2]) val0 r0 k0 hdr
                          (by simp at hf ⊢; omega)]
                        have e1 : acc ++ [e2] ++ val0 = acc ++ e2 :: val0 := by simp
                        rw [e1]
                    · rw [if_neg q4] at hd ⊢
                      cases hdr : decodeQuotedF g body' with
                      | none => rw [hdr] at hd; exact Option.noConfusion hd
                      | some vrk =>
                        obtain ⟨val0, r0, k0⟩ := vrk
                        rw [hdr] at hd
                        dsimp only at hd
                        injection hd with hd'
                        simp only [Prod.mk.injEq] at hd'
                        obtain ⟨hv, hr, hk⟩ := hd'
                        subst hv
                        subst hr
                        subst hk
                        rw [ih f' body' fn ln (acc ++ ['\\', e2]) val0 r0 k0 hdr
                          (by simp at hf ⊢; omega)]
                        have e1 : acc ++ ['\\', e2] ++ val0 =
                            acc ++ '\\' :: e2 :: val0 := by simp
                        rw [e1]
          · rw [if_neg h3] at hd ⊢
            cases hdr : decodeQuotedF g body with
            | none => rw [hdr] at hd; exact Option.noConfusion hd
            | some vrk =>
              obtain ⟨val0, r0, k0⟩ := vrk
              rw [hdr] at hd
              dsimp only at hd
              injection hd with hd'
              simp only [Prod.mk.injEq] at hd'
              obtain ⟨hv, hr, hk⟩ := hd'
              subst hv
              subst hr
              subst hk
              rw [ih f' body fn ln (acc ++ [c]) val0 r0 k0 hdr
                (by simp at hf ⊢; omega)]
              have e1 : acc ++ [c] ++ val0 = acc ++ c :: val0 := by simp
              rw [e1]

/-- Dispatch of an opening quote into the string loop. -/
theorem nextTokA_quote (fn : String) (sb : Bool) (f : Nat) (rest : List Char)
    (ln : Nat) :
    nextTokA fn sb (f + 1) ('"' :: rest) ln = stringA fn f rest ln [] := by
  rw [nextTokA_step, if_neg (by decide), if_neg (by decide), if_neg (by decide),
    if_neg (by decide), if_neg (by decide), if_neg (by decide), if_neg (by decide),
    if_neg (by decide), if_neg (by decide), if_pos rfl]

/-- Claim C3: quoted-string escape decoding.  Whenever the pure decoding
specification (backslash-n to newline, backslash-t to tab, backslash
followed by an actual newline consumed and discarded without appending or
counting, backslash before quote, backslash or slash kept as that literal
character, any other escape kept verbatim with its backslash, closing
quote ending the string) succeeds on the characters after an opening
quote, `next_token` returns a STRING token carrying exactly the decoded
text, leaves exactly the specified rest of the stream, and advances the
line counter by exactly the specified number of real newlines. -/
theorem claim_C3 (t : Tokenizer) (body val rest : List Char) (k : Nat)
    (h : t.Inv) (hs : t.stream = '"' :: body)
    (hd : decodeQuoted body = some (val, rest, k)) :
    ∃ t', t.next_token = .ok ((Token.STRING, some (String.mk val)), t') ∧
      t'.stream = rest ∧ t'.line_num = t.line_num + k ∧
      t'.filename = t.filename := by
  rcases t.next_token_sim h with ⟨-, hk⟩
  have hA : nextTokA t.filename t.string_bracket (t.stream.length + 2) t.stream
      t.line_num = .ok ((.STRING, some (String.mk val)), rest, t.line_num + k) := by
    rw [hs]
    have hlen : ('"' :: body).length + 2 = (('"' :: body).length + 1) + 1 := rfl
    rw [hlen, nextTokA_quote]
    have := stringA_decode (body.length + 1) (('"' :: body).length + 1) body
      t.filename t.line_num [] val rest k hd (by simp)
    rw [this]
    rfl
  rcases hk _ hA with ⟨t', k1, k2, k3, -, k5, -⟩
  exact ⟨t', k1, k2, k3, k5⟩

/-- Witness for C3 on the body of `"a\nb"` (backslash-n escape). -/
theorem claim_C3_witness :
    ∃ t', (Tokenizer.fromString "\"a\\nb\"" "" false).next_token =
        .ok ((Token.STRING, some (String.mk ['a', '\n', 'b'])), t') ∧
      t'.stream = [] ∧ t'.line_num = 1 + 0 ∧ t'.filename = "" :=
  claim_C3 (Tokenizer.fromString "\"a\\nb\"" "" false)
    ['a', '\\', 'n', 'b', '"'] ['a', '\n', 'b'] [] 0
    (by decide) (by decide) (by decide)

/-!
## Error shapes (claim C4)
-/

/-- With sufficient fuel the comment loop never fails. -/
theorem commentA_err : ∀ (f : Nat) (cs : List Char) (e : TokError),
    cs.length + 1 ≤ f → commentA f cs = .error e → False := by
  intro f
  induction f with
  | zero =>
    intro cs e hf _
    omega
  | succ f ih =>
    intro cs e hf he
    cases cs with
    | nil => exact Except.noConfusion (show Except.ok ([] : List Char) = .error e from he)
    | cons c rest =>
      rw [commentA] at he
      by_cases hc : c = '\n'
      · rw [if_pos hc] at he
        exact Except.noConfusion he
      · rw [if_neg hc] at he
        exact ih rest e (by simp at hf ⊢; omega) he

/-- With sufficient fuel the bare-name loop never fails. -/
theorem bareA_err : ∀ (f : Nat) (cs : List Char) (ln : Nat) (acc : List Char)
    (e : TokError), cs.length + 1 ≤ f → bareA f cs ln acc = .error e → False := by
  intro f
  induction f with
  | zero =>
    intro cs ln acc e hf _
    omega
  | succ f ih =>
    intro cs ln acc e hf he
    cases cs with
    | nil =>
      rw [bareA_nil] at he
      exact Except.noConfusion he
    | cons c rest =>
      rw [bareA_step] at he
      by_cases h1 : BARE_DISALLOWED.contains c
      · rw [if_pos h1] at he
        exact Except.noConfusion he
      · rw [if_neg h1] at he
        exact ih rest ln (acc ++ [c]) e (by simp at hf ⊢; omega) he

/-- With sufficient fuel every quoted-string error is a syntax error
carrying the tokenizer's filename and a line at or past the current one. -/
theorem stringA_err : ∀ (f : Nat) (fn : String) (cs : List Char) (ln : Nat)
    (acc : List Char) (e : TokError), cs.length + 1 ≤ f →
    stringA fn f cs ln acc = .error e →
    ∃ msg ln', e = .tse msg fn ln' ∧ ln ≤ ln' := by
  intro f
  induction f with
  | zero =>
    intro cs fn ln acc e hf _
    omega
  | succ f ih =>
    intro fn cs ln acc e hf he
    cases cs with
    | nil =>
      rw [stringA_nil] at he
      injection he with h
      exact ⟨"Unterminated string!", ln, h.symm, le_refl _⟩
    | cons c rest =>
      rw [stringA_step] at he
      by_cases h1 : c = '"'
      · rw [if_pos h1] at he
        exact Except.noConfusion he
      · rw [if_neg h1] at he
        by_cases h2 : c = '\n'
        · rw [if_pos h2] at he
          rcases ih fn rest (ln + 1) (acc ++ ['\n']) e (by simp at hf ⊢; omega) he
            with ⟨msg, ln', he', hle⟩
          exact ⟨msg, ln', he', by omega⟩
        · rw [if_neg h2] at he
          by_cases h3 : c = '\\'
          · rw [if_pos h3] at he
            cases rest with
            | nil =>
              dsimp only at he
              injection he with h
              exact ⟨"Unterminated string!", ln, h.symm, le_refl _⟩
            | cons e2 rest2 =>
              dsimp only at he
              have hfr : rest2.length + 1 ≤ f := by simp at hf ⊢; omega
              by_cases q1 : e2 = 'n'
              · rw [if_pos q1] at he
                exact ih fn rest2 ln (acc ++ ['\n']) e hfr he
              · rw [if_neg q1] at he
                by_cases q2 : e2 = 't'
                · rw [if_pos q2] at he
                  exact ih fn rest2 ln (acc ++ ['\t']) e hfr he
                · rw [if_neg q2] at he
                  by_cases q3 : e2 = '\n'
                  · rw [if_pos q3] at he
                    exact ih fn rest2 ln acc e hfr he
                  · rw [if_neg q3] at he
                    by_cases q4 : e2 = '"' ∨ e2 = '\\' ∨ e2 = '/'
                    · rw [if_pos q4] at he
                      exact ih fn rest2 ln (acc ++ [e2]) e hfr he
                    · rw [if_neg q4] at he
                      exact ih fn rest2 ln (acc ++ ['\\', e2]) e hfr he
          · rw [if_neg h3] at he
            exact ih fn rest ln (acc ++ [c]) e (by simp at hf ⊢; omega) he

/-- With sufficient fuel every property-flag error is a syntax error
carrying the filename and the current line. -/
theorem flagA_err : ∀ (f : Nat) (fn : String) (cs : List Char) (ln : Nat)
    (acc : List Char) (e : TokError), cs.length + 1 ≤ f →
    flagA fn f cs ln acc = .error e →
    ∃ msg ln', e = .tse msg fn ln' ∧ ln ≤ ln' := by
  intro f
  induction f with
  | zero =>
    intro cs fn ln acc e hf _
    omega
  | succ f ih =>
    intro fn cs ln acc e hf he
    cases cs with
    | nil =>
      rw [flagA_nil] at he
      injection he with h
      exact ⟨"Unterminated property flag!", ln, h.symm, le_refl _⟩
    | cons c rest =>
      rw [flagA_step] at he
      by_cases h1 : c = ']'
      · rw [if_pos h1] at he
        exact Except.noConfusion he
      · rw [if_neg h1] at he
        by_cases h2 : c = '\n'
        · rw [if_pos h2] at he
          injection he with h
          exact ⟨"Unexpected token NEWLINE!", ln, h.symm, le_refl _⟩
        · rw [if_neg h2] at he
          exact ih fn rest ln (acc ++ [c]) e (by simp at hf ⊢; omega) he

/-- With sufficient fuel every parenthesis error is a syntax error
carrying the filename and a line at or past the current one. -/
theorem parenA_err : ∀ (f : Nat) (fn : String) (cs : List Char) (ln : Nat)
    (acc : List Char) (e : TokError), cs.length + 1 ≤ f →
    parenA fn f cs ln acc = .error e →
    ∃ msg ln', e = .tse msg fn ln' ∧ ln ≤ ln' := by
  intro f
  induction f with
  | zero =>
    intro cs fn ln acc e hf _
    omega
  | succ f ih =>
    intro fn cs ln acc e hf he
    cases cs with
    | nil =>
      rw [parenA_nil] at he
      injection he with h
      exact ⟨"Unterminated parentheses!", ln, h.symm, le_refl _⟩
    | cons c rest =>
      rw [parenA_step] at he
      by_cases h1 : c = ')'
      · rw [if_pos h1] at he
        exact Except.noConfusion he
      · rw [if_neg h1] at he
        by_cases h2 : c = '\n'
        · rw [if_pos h2] at he
          rcases ih fn rest (ln + 1) (acc ++ ['\n']) e (by simp at hf ⊢; omega) he
            with ⟨msg, ln', he', hle⟩
          exact ⟨msg, ln', he', by omega⟩
        · rw [if_neg h2] at he
          exact ih fn rest ln (acc ++ [c]) e (by simp at hf ⊢; omega) he

/-- With sufficient fuel every `nextTokA` error is a syntax error carrying
the filename and a line at or past the current one. -/
theorem nextTokA_err : ∀ (f : Nat) (fn : String) (sb : Bool) (cs : List Char)
    (ln : Nat) (e : TokError), cs.length + 2 ≤ f →
    nextTokA fn sb f cs ln = .error e →
    ∃ msg ln', e = .tse msg fn ln' ∧ ln ≤ ln' := by
  intro f
  induction f with
  | zero =>
    intro fn sb cs ln e hf _
    omega
  | succ f ih =>
    intro fn sb cs ln e hf he
    cases cs with
    | nil =>
      rw [nextTokA_nil] at he
      exact Except.noConfusion he
    | cons c rest =>
      rw [nextTokA_step] at he
      by_cases g1 : c = '{'
      · rw [if_pos g1] at he
        exact Except.noConfusion he
      · rw [if_neg g1] at he
        by_cases g2 : c = '}'
        · rw [if_pos g2] at he
          exact Except.noConfusion he
        · rw [if_neg g2] at he
          by_cases g3 : c = ':'
          · rw [if_pos g3] at he
            exact Except.noConfusion he
          · rw [if_neg g3] at he
            by_cases g4 : c = '+'
            · rw [if_pos g4] at he
              exact Except.noConfusion he
            · rw [if_neg g4] at he
              by_cases g5 : c = '='
              · rw [if_pos g5] at he
                exact Except.noConfusion he
              · rw [if_neg g5] at he
                by_cases g6 : c = ']'
                · rw [if_pos g6] at he
                  exact Except.noConfusion he
                · rw [if_neg g6] at he
                  by_cases g7 : c = '\n'
                  · rw [if_pos g7] at he
                    exact Except.noConfusion he
                  · rw [if_neg g7] at he
                    by_cases g8 : c = ' ' ∨ c = '\t'
                    · rw [if_pos g8] at he
                      exact ih fn sb rest ln e (by simp at hf ⊢; omega) he
                    · rw [if_neg g8] at he
                      by_cases g9 : c = '/'
                      · rw [if_pos g9] at he
                        cases rest with
                        | nil =>
                          dsimp only at he
                          injection he with h
                          exact ⟨"Single slash found!", ln, h.symm, le_refl _⟩
                        | cons c2 rest2 =>
                          dsimp only at he
                          by_cases hc2 : c2 = '/'
                          · rw [if_pos hc2] at he
                            cases hca : commentA f rest2 with
                            | error e' =>
                              exact absurd (hca)
                                (fun hh => commentA_err f rest2 e'
                                  (by simp at hf ⊢; omega) hh)
                            | ok rest3 =>
                              rw [hca] at he
                              dsimp only at he
                              rcases commentA_facts f rest2 rest3 hca with ⟨cc, hccs, -⟩
                              have hlen3 : rest3.length + 2 ≤ f := by
                                have : rest2.length = cc.length + rest3.length := by
                                  rw [hccs]
                                  simp
                                simp at hf
                                omega
                              exact ih fn sb rest3 ln e hlen3 he
                          · rw [if_neg hc2] at he
                            injection he with h
                            exact ⟨"Single slash found!", ln, h.symm, le_refl _⟩
                      · rw [if_neg g9] at he
                        by_cases g10 : c = '"'
                        · rw [if_pos g10] at he
                          exact stringA_err f fn rest ln [] e
                            (by simp at hf ⊢; omega) he
                        · rw [if_neg g10] at he
                          by_cases g11 : c = '['
                          · rw [if_pos g11] at he
                            by_cases hbr : ¬ sb
                            · rw [if_pos hbr] at he
                              exact Except.noConfusion he
                            · rw [if_neg hbr] at he
                              exact flagA_err f fn rest ln [] e
                                (by simp at hf ⊢; omega) he
                          · rw [if_neg g11] at he
                            by_cases g12 : c = '('
                            · rw [if_pos g12] at he
                              exact parenA_err f fn rest ln [] e
                                (by simp at hf ⊢; omega) he
                            · rw [if_neg g12] at he
                              by_cases g13 : BARE_DISALLOWED.contains c
                              · rw [if_neg (not_not_intro g13)] at he
                                injection he with h
                                exact ⟨"Unexpected character \"" ++ String.mk [c] ++ "\"!",
                                  ln, h.symm, le_refl _⟩
                              · rw [if_pos g13] at he
                                exact absurd he
                                  (fun hh => bareA_err f rest ln [c] e
                                    (by simp at hf ⊢; omega) hh)

/-- Counterexample to C4 as stated: pulling a non-string chunk raises the
plain `ValueError("Data was not a string!")` of source line 127, which is
not an instance of the configured error type and carries neither the
filename (here `f.txt`) nor the line number. -/
theorem claim_C4_counterexample :
    (Tokenizer.fromChunks [Chunk.other] "f.txt" false).next_token =
      .error (.valueError "Data was not a string!") ∧
    TokError.isTse (.valueError "Data was not a string!") = false :=
  ⟨rfl, rfl⟩

/-- Claim C4 (amended): on a well-formed input -- every streamed chunk a
string -- each error produced by a `next_token` call is an instance of the
configured error type carrying the tokenizer's filename and a line number
at or past the current line (the line current at the point of failure);
only the non-string-chunk `ValueError` escapes this rule. -/
theorem claim_C4 (t : Tokenizer) (h : t.Inv) (e : TokError)
    (herr : t.next_token = .error e) :
    ∃ msg ln', e = .tse msg t.filename ln' ∧ t.line_num ≤ ln' := by
  rcases t.next_token_sim h with ⟨he, hk⟩
  cases hA : nextTokA t.filename t.string_bracket (t.stream.length + 2) t.stream
      t.line_num with
  | error e' =>
    have := he e' hA
    rw [herr] at this
    injection this with hh
    rcases nextTokA_err _ _ _ _ _ _ (by omega) hA with ⟨msg, ln', he', hle⟩
    exact ⟨msg, ln', by rw [hh, he'], hle⟩
  | ok r =>
    rcases hk r hA with ⟨t', k1, -⟩
    rw [herr] at k1
    exact Except.noConfusion k1

/-- Witness for the amended C4: an unterminated string reports the
configured syntax error with filename and line. -/
theorem claim_C4_witness :
    ∃ msg ln', (TokError.tse "Unterminated string!" "f.txt" 1) =
        .tse msg (Tokenizer.fromString "\"abc" "f.txt" false).filename ln' ∧
      (Tokenizer.fromString "\"abc" "f.txt" false).line_num ≤ ln' :=
  claim_C4 (Tokenizer.fromString "\"abc" "f.txt" false) (by decide)
    (.tse "Unterminated string!" "f.txt" 1) rfl

/-!
## `expect` (claims C5 and C6)
-/

/-- Unfolding of `expect` into the skip-resolution, the token-consuming
loop, and the mismatch check. -/
theorem Tokenizer.expect_eq (t : Tokenizer) (token : Token) (skip_newline : Bool) :
    t.expect token skip_newline =
      match t.expectLoop (t.M + 2) (if token = .NEWLINE then false else skip_newline) with
      | .error e => .error e
      | .ok ((tok, _), t') =>
        if tok ≠ token then
          .error (.tse ("Expected " ++ token.pyStr ++ ", but got " ++ tok.pyStr ++ "!")
            t'.filename t'.line_num)
        else .ok (none, t') := rfl

/-- One-step unfolding of the `expect` token loop at positive fuel. -/
theorem Tokenizer.expectLoop_step (f : Nat) (t : Tokenizer) (skip : Bool) :
    t.expectLoop (f + 1) skip =
      match t.next_token with
      | .error e => .error e
      | .ok ((tok, v), t') =>
        if skip ∧ tok = .NEWLINE then t'.expectLoop f skip
        else .ok ((tok, v), t') := rfl

/-- The `expect` loop is insensitive to its fuel once the fuel exceeds the
stream length. -/
theorem Tokenizer.expectLoop_fuel : ∀ (f1 f2 : Nat) (t : Tokenizer) (skip : Bool),
    t.Inv → t.stream.length + 1 ≤ f1 → t.stream.length + 1 ≤ f2 →
    t.expectLoop f1 skip = t.expectLoop f2 skip := by
  intro f1
  induction f1 with
  | zero =>
    intro f2 t skip _ h1 _
    omega
  | succ f1 ih =>
    intro f2 t skip hinv h1 h2
    obtain ⟨f2', rfl⟩ : ∃ f2', f2 = f2' + 1 := ⟨f2 - 1, by omega⟩
    rw [Tokenizer.expectLoop_step, Tokenizer.expectLoop_step]
    cases hnt : t.next_token with
    | error e => rfl
    | ok p =>
      obtain ⟨⟨tok, v⟩, t'⟩ := p
      dsimp only
      by_cases hc : (skip = true) ∧ tok = Token.NEWLINE
      · rw [if_pos hc, if_pos hc]
        rcases t.next_token_spec hinv tok v t' hnt with
          ⟨hinv', -, -, -, -, -, -, -, -, hprog⟩
        have hlt : t'.stream.length < t.stream.length := by
          apply hprog
          rw [hc.2]
          decide
        exact ih f2' t' skip hinv' (by omega) (by omega)
      · rw [if_neg hc, if_neg hc]

/-- Counterexample to C5 as stated: on `foo`, `expect(STRING)` succeeds
and returns `None`, while the matched token's value is `"foo"` -- the
source function has no `return` statement, so the value is dropped. -/
theorem claim_C5_counterexample :
    Except.map Prod.fst ((Tokenizer.fromString "foo" "" false).expect
        Token.STRING true) = .ok (none : Option String) ∧
    Except.map Prod.fst ((Tokenizer.fromString "foo" "" false).next_token) =
      .ok ((Token.STRING, some "foo") : TokValue) ∧
    some "foo" ≠ (none : Option String) :=
  ⟨rfl, rfl, by decide⟩

/-- Claim C5 (amended): when `expect(kind, skip_newline)` succeeds, it has
consumed the matched token but returns `None`, not the token's value (the
source's `expect` ends on the mismatch `raise` and has no `return`). -/
theorem claim_C5 (t : Tokenizer) (token : Token) (skip : Bool)
    (hsucc : ∃ v t', t.expect token skip = .ok (v, t')) :
    Except.map Prod.fst (t.expect token skip) = .ok (none : Option String) := by
  rcases hsucc with ⟨v, t', hok⟩
  rw [Tokenizer.expect_eq] at hok ⊢
  cases hL : t.expectLoop (t.M + 2)
      (if token = Token.NEWLINE then false else skip) with
  | error e =>
    rw [hL] at hok
    exact Except.noConfusion hok
  | ok p =>
    obtain ⟨⟨tok, v'⟩, t''⟩ := p
    rw [hL] at hok
    dsimp only at hok ⊢
    by_cases htok : tok ≠ token
    · rw [if_pos htok] at hok
      exact Except.noConfusion hok
    · rw [if_neg htok]
      rfl

/-- Witness for the amended C5. -/
theorem claim_C5_witness :
    Except.map Prod.fst ((Tokenizer.fromString "foo" "" false).expect
        Token.STRING true) = .ok (none : Option String) :=
  claim_C5 (Tokenizer.fromString "foo" "" false) Token.STRING true ⟨none, _, rfl⟩

/-- Claim C6: the `expect` protocol.  Requesting NEWLINE forces newline
skipping off whatever the flag, and the very next token must then be a
NEWLINE or the mismatch error (naming both kinds) is raised; with
`skip_newline` true and any other requested kind, NEWLINE tokens are
consumed and silently discarded; and whenever the first non-skipped
token's kind differs from the requested kind, the configured error
reporting both the expected and the actual kind (with filename and line)
is raised. -/
theorem claim_C6 :
    (∀ (t : Tokenizer) (b : Bool),
      t.expect Token.NEWLINE b = t.expect Token.NEWLINE false) ∧
    (∀ (t : Tokenizer) (token : Token) (v : Option String) (t' : Tokenizer),
      t.Inv → ¬ token = Token.NEWLINE →
      t.next_token = .ok ((Token.NEWLINE, v), t') →
      t.expect token true = t'.expect token true) ∧
    (∀ (t : Tokenizer) (token : Token) (skip : Bool) (tok : Token)
        (v : Option String) (t'' : Tokenizer),
      t.expectLoop (t.M + 2) (if token = Token.NEWLINE then false else skip) =
        .ok ((tok, v), t'') → ¬ tok = token →
      t.expect token skip = .error (.tse ("Expected " ++ token.pyStr ++
        ", but got " ++ tok.pyStr ++ "!") t''.filename t''.line_num)) ∧
    (∀ (t : Tokenizer) (tok : Token) (v : Option String) (t' : Tokenizer) (b : Bool),
      t.next_token = .ok ((tok, v), t') → ¬ tok = Token.NEWLINE →
      t.expect Token.NEWLINE b = .error (.tse ("Expected " ++
        Token.pyStr Token.NEWLINE ++ ", but got " ++ tok.pyStr ++ "!")
        t'.filename t'.line_num)) := by
  refine ⟨?_, ?_, ?_, ?_⟩
  · intro t b
    rfl
  · intro t token v t' hinv htok hok
    rcases t.next_token_spec hinv Token.NEWLINE v t' hok with
      ⟨hinv', -, -, -, -, -, -, -, -, hprog⟩
    have hlt : t'.stream.length < t.stream.length := hprog (by decide)
    rw [Tokenizer.expect_eq, Tokenizer.expect_eq]
    have hskip : (if token = Token.NEWLINE then false else true) = true :=
      if_neg htok
    rw [hskip]
    have hM2 : t.M + 2 = (t.M + 1) + 1 := rfl
    have hstep : t.expectLoop (t.M + 2) true = t'.expectLoop (t.M + 1) true := by
      rw [hM2, Tokenizer.expectLoop_step, hok]
      dsimp only
      rw [if_pos ⟨rfl, rfl⟩]
    have hfuel : t'.expectLoop (t.M + 1) true = t'.expectLoop (t'.M + 2) true := by
      apply Tokenizer.expectLoop_fuel _ _ _ _ hinv'
      · rw [t.M_eq_length hinv] at *
        omega
      · rw [t'.M_eq_length hinv']
        omega
    rw [hstep, hfuel]
  · intro t token skip tok v t'' hL htok
    rw [Tokenizer.expect_eq, hL]
    dsimp only
    rw [if_pos htok]
  · intro t tok v t' b hok htok
    have h0 : t.expect Token.NEWLINE b = t.expect Token.NEWLINE false := rfl
    rw [h0, Tokenizer.expect_eq]
    have hL : t.expectLoop (t.M + 2)
        (if Token.NEWLINE = Token.NEWLINE then false else false) =
        .ok ((tok, v), t') := by
      rw [if_pos rfl]
      have hM2 : t.M + 2 = (t.M + 1) + 1 := rfl
      rw [hM2, Tokenizer.expectLoop_step, hok]
      dsimp only
      rw [if_neg (fun hh => by exact Bool.noConfusion hh.1)]
    rw [hL]
    dsimp only
    rw [if_pos htok]

/-- Witness for C6: on `\nfoo` requesting COLON, the leading NEWLINE is
skipped; on `foo` requesting NEWLINE, the mismatch error names both
kinds. -/
theorem claim_C6_witness :
    ((Tokenizer.fromString "\nfoo" "" false).expect Token.COLON true =
      Tokenizer.expect
        { cur_chunk := ['\n', 'f', 'o', 'o'], chunk_iter := [], char_index := 0,
          filename := "", line_num := 2, string_bracket := false }
        Token.COLON true) ∧
    ((Tokenizer.fromString "foo" "" false).expect Token.NEWLINE true =
      .error (.tse ("Expected " ++ Token.pyStr Token.NEWLINE ++ ", but got " ++
        Token.pyStr Token.STRING ++ "!")
        (Tokenizer.filename
          { cur_chunk := ['f', 'o', 'o'], chunk_iter := [], char_index := 3,
            filename := "", line_num := 1, string_bracket := false })
        (Tokenizer.line_num
          { cur_chunk := ['f', 'o', 'o'], chunk_iter := [], char_index := 3,
            filename := "", line_num := 1, string_bracket := false }))) :=
  ⟨claim_C6.2.1 (Tokenizer.fromString "\nfoo" "" false) Token.COLON (some "\n")
      { cur_chunk := ['\n', 'f', 'o', 'o'], chunk_iter := [], char_index := 0,
        filename := "", line_num := 2, string_bracket := false }
      (by decide) (by decide) rfl,
    claim_C6.2.2.2 (Tokenizer.fromString "foo" "" false) Token.STRING
      (some "foo")
      { cur_chunk := ['f', 'o', 'o'], chunk_iter := [], char_index := 3,
        filename := "", line_num := 1, string_bracket := false }
      true rfl (by decide)⟩
